import Mathlib

/-!
Verification of the filename-parsing, caching and renaming pipeline of the
SpecBot repository (`batch_importer.py`, `app.py`, `drive_file_renamer.py`).

Python strings are modelled as `List Char`, Python dicts as insertion-ordered
association lists `List (Str × _)` with first-match lookup and
update-in-place-or-append assignment, and the external completion service as
an oracle parameter `complete : model → prompt → Except error reply`.
-/

/-- Python `str` modelled as a list of characters. -/
abbrev Str : Type := List Char

/-- Index of the first `'.'` in a character list, `none` when absent. -/
def firstDotIdx : Str → Option Nat
  | [] => none
  | c :: cs => if c = '.' then some 0 else (firstDotIdx cs).map Nat.succ

/-- Helper for `pySplitext`: `k` is the index of the last dot counted from
the end of the name (`none` when the name has no dot). -/
def pySplitextAux (p : Str) : Option Nat → Str × Str
  | none => (p, [])
  | some k =>
    if (p.take (p.length - (k + 1))).any (fun c => decide (c ≠ '.')) then
      (p.take (p.length - (k + 1)), p.drop (p.length - (k + 1)))
    else (p, [])

/-- `os.path.splitext` for plain filenames (no path separators): split at the
last dot, unless every character before that dot is itself a dot (so
leading-dot names such as `".bashrc"` keep an empty extension). -/
def pySplitext (p : Str) : Str × Str :=
  pySplitextAux p (firstDotIdx p.reverse)

/-- Split a string at the first occurrence of `sep`:
`splitFirst sep s = some (a, b)` exactly when `s = a ++ sep :: b` with
`sep ∉ a`; `none` when `sep` does not occur. -/
def splitFirst (sep : Char) : Str → Option (Str × Str)
  | [] => none
  | c :: cs =>
    if c = sep then some ([], cs)
    else (splitFirst sep cs).map (fun ab => (c :: ab.1, ab.2))

/-- Python `str.split(sep, maxsplit)`: split at the first `maxsplit`
occurrences of `sep`, keeping empty pieces. -/
def pySplit (sep : Char) : Nat → Str → List Str
  | 0, s => [s]
  | m + 1, s =>
    match splitFirst sep s with
    | none => [s]
    | some ab => ab.1 :: pySplit sep m ab.2

/-- The fixed note attached by the rule-based parser
(`batch_importer.parse_filename`). -/
def stdNote : Str := "Standard 5-part parse (Product+Variant combined).".toList

/-- `batch_importer.parse_filename`: strip the extension, split the stem at
the first 4 underscores, succeed iff that yields exactly 5 pieces
(`(None, None)` is modelled as `none`). -/
def parse_filename (filename : Str) : Option (List Str × Str) :=
  let name := (pySplitext filename).1
  let parts := pySplit '_' 4 name
  if parts.length = 5 then some (parts, stdNote) else none

/-- Prefix test used by `strHas`. -/
def strStarts (needle hay : Str) : Bool :=
  decide (needle = hay.take needle.length)

/-- Substring occurrence test (used to state which service names a notes
string mentions). -/
def strHas (needle : Str) : Str → Bool
  | [] => needle.isEmpty
  | c :: t => strStarts needle (c :: t) || strHas needle t

/-! ### Basic lemmas about the string primitives -/
/-! ### Data model

`gpt_filename_cache.json` is a JSON object mapping filenames to parse-record
objects, except for the reserved keys `"examples"` (a list of example
objects) and `"rename_log"` (a list of rename entries, written by
`drive_file_renamer.py`).  The heterogeneous values are modelled by `CVal`. -/

/-- A parse record as stored in the cache by `batch_importer.py`. -/
structure PRec where
  parsed : List Str
  notes : Str
  source : Str
  corrected_by : Option Str
  view_url : Str
deriving DecidableEq

/-- A promoted few-shot example as stored under the `"examples"` key. -/
structure ExEntry where
  filename : Str
  parsed : List Str
  notes : Str
  source : Str
  corrected_by : Option Str
  view_url : Str
deriving DecidableEq

/-- One executed rename, as recorded by `drive_file_renamer.py`. -/
structure RenEntry where
  file_id : Str
  old_name : Str
  new_name : Str
deriving DecidableEq

/-- A value stored in the cache dict: a parse record under a filename key, or
one of the two reserved-key payloads. -/
inductive CVal where
  | record : PRec → CVal
  | exampleList : List ExEntry → CVal
  | renameLog : List RenEntry → CVal
deriving DecidableEq

/-- The persisted cache: a Python dict modelled as an insertion-ordered
association list. -/
abbrev Cache := List (Str × CVal)

/-- A drive file as returned by the listing collaborator: identifier and
current name. -/
structure DFile where
  id : Str
  name : Str
deriving DecidableEq

/-! ### Python dict operations on association lists -/

/-- Dict lookup (first matching key; keys are unique in well-formed dicts). -/
def dget {α : Type} : List (Str × α) → Str → Option α
  | [], _ => none
  | kv :: t, k => if kv.1 = k then some kv.2 else dget t k

/-- Python `k in d`. -/
def dmem {α : Type} (l : List (Str × α)) (k : Str) : Bool :=
  (dget l k).isSome

/-- Python `d[k] = v`: update the existing entry in place, else append. -/
def dset {α : Type} : List (Str × α) → Str → α → List (Str × α)
  | [], k, v => [(k, v)]
  | kv :: t, k, v => if kv.1 = k then (k, v) :: t else kv :: dset t k v

/-- The keys of a dict, in insertion order. -/
def dkeys {α : Type} (l : List (Str × α)) : List Str :=
  l.map Prod.fst

/-- Python `d[new] = d.pop(old)` (callers guard on `old in d`). -/
def dmove {α : Type} (l : List (Str × α)) (old new : Str) : List (Str × α) :=
  match dget l old with
  | some v => dset (l.filter (fun kv => decide (kv.1 ≠ old))) new v
  | none => l

/-! ### batch_importer.py -/

def EXAMPLES_KEY : Str := "examples".toList

def RENAME_LOG_KEY : Str := "rename_log".toList

/-- The keys `drive_file_renamer.py` excludes from filename iteration. -/
def reservedKeys : List Str := [EXAMPLES_KEY, RENAME_LOG_KEY]

/-- `cache.get(EXAMPLES_KEY, [])`.  (A non-list value under the key would
make the Python callers raise; such caches are excluded by the
well-formedness hypotheses below.) -/
def getExamples (cache : Cache) : List ExEntry :=
  match dget cache EXAMPLES_KEY with
  | some (CVal.exampleList l) => l
  | _ => []

/-- One promotion into the Example Store: append, then keep only the last 20
entries when the bound is exceeded (lines 150-162 of batch_importer.py). -/
def promoteExample (l : List ExEntry) (e : ExEntry) : List ExEntry :=
  let l2 := l ++ [e]
  if l2.length > 20 then l2.drop (l2.length - 20) else l2

/-- `[""] * 5`. -/
def empty5 : List Str := [[], [], [], [], []]

/-- The view URL built for each listed file. -/
def viewUrl (fid : Str) : Str :=
  "https://drive.google.com/file/d/".toList ++ fid ++ "/view?usp=drivesdk".toList

/-- The single-quote character used by Python `repr` of strings. -/
def pyQuote : Char := Char.ofNat 39

/-- Python `repr` of a plain string (quote-escaping edge cases aside, which
never occur in the rendered fields). -/
def pyStrRepr (s : Str) : Str := pyQuote :: (s ++ [pyQuote])

/-- Python `repr`/f-string rendering of a list of strings, as produced by
`f"{ex['parsed']}"`. -/
def pyStrListRepr (l : List Str) : Str :=
  '[' :: (List.intercalate ", ".toList (l.map pyStrRepr) ++ [']'])

/-- One example line of the batch prompt:
`f"{ex['filename']} -> {ex['parsed']} (Note: {ex['notes']})"`. -/
def exampleLine (e : ExEntry) : Str :=
  e.filename ++ " -> ".toList ++ pyStrListRepr e.parsed ++
    " (Note: ".toList ++ e.notes ++ [')']

/-- `batch_importer.build_gpt_prompt`: fixed task text, the first 5 stored
examples rendered line by line, and the target filename. -/
def build_gpt_prompt (filename : Str) (cache : Cache) : Str :=
  let examples := (getExamples cache).take 5
  let examples_txt :=
    if examples.isEmpty then "No prior examples available.".toList
    else List.intercalate ['\n'] (examples.map exampleLine)
  ("You are a file naming expert for print/packaging specs. " ++
   "Given a filename, parse these 5 fields, treating underscores only as delimiters: " ++
   "[Item Code, Brand, Product+Variant, Dimensions, No. of Colours].\n" ++
   "Product+Variant may contain underscores inside, do not split further. " ++
   "Hyphens and numbers can appear anywhere. Always explain edge cases or corrections in notes.\n" ++
   "Here are some parsed filenames with notes:\n").toList ++
  examples_txt ++ ['\n'] ++
  "Now parse: ".toList ++ filename ++ ['\n'] ++
  "Return as JSON: \x7b\"parsed\": [..fields..], \"notes\": \"...\"\x7d".toList

/-- The external completion service (plus JSON decoding of its reply),
abstracted as an oracle: arguments are the model name and the prompt; a
successful call yields `(parsed, notes)`, and any service error, timeout or
undecodable reply is an `Except.error` carrying the exception text. -/
abbrev Completion := Str → Str → Except Str (List Str × Str)

/-- `batch_importer.gpt_parse_filename`: one call to the `"gpt-4o"` model; on
any failure return 5 empty fields and `"GPT error: <e>"`.  There is no second
attempt. -/
def gpt_parse_filename (complete : Completion) (filename : Str)
    (cache : Cache) : List Str × Str :=
  match complete "gpt-4o".toList (build_gpt_prompt filename cache) with
  | Except.ok pn => pn
  | Except.error e => (empty5, "GPT error: ".toList ++ e)

/-- One iteration of the loop in `batch_importer.batch_parse_and_update_cache`:
refresh `view_url` for already-cached names, otherwise parse (grammar first,
model fallback), store the record, and promote it to the Example Store when
all 5 fields are non-empty.  The returned flag is this iteration's
contribution to `updated`.  (For a cached reserved key holding a non-record
value Python would raise; that branch is left as the identity and excluded by
the theorems' hypotheses.) -/
def processFile (complete : Completion) (cache : Cache) (f : DFile) :
    Cache × Bool :=
  let vu := viewUrl f.id
  match dget cache f.name with
  | some (CVal.record r) =>
      (dset cache f.name (CVal.record { r with view_url := vu }), false)
  | some _ => (cache, false)
  | none =>
    let newRec : PRec :=
      match parse_filename f.name with
      | some pn => ⟨pn.1, pn.2, "Rule".toList, none, vu⟩
      | none =>
        let pn := gpt_parse_filename complete f.name cache
        ⟨pn.1, pn.2, "GPT".toList, none, vu⟩
    let c1 := dset cache f.name (CVal.record newRec)
    let c2 :=
      if newRec.parsed.length = 5 ∧ (∀ p ∈ newRec.parsed, p ≠ []) then
        dset c1 EXAMPLES_KEY (CVal.exampleList
          (promoteExample (getExamples c1)
            ⟨f.name, newRec.parsed, newRec.notes, newRec.source, none, vu⟩))
      else c1
    (c2, true)

/-- `batch_importer.batch_parse_and_update_cache` over a completed listing. -/
def batch_parse_and_update_cache (complete : Completion) (files : List DFile)
    (cache : Cache) : Cache × Bool :=
  files.foldl
    (fun acc f =>
      let cu := processFile complete acc.1 f
      (cu.1, acc.2 || cu.2))
    (cache, false)

/-- One sheet row for a cache entry (`batch_importer.write_to_gsheet` body):
`parsed + [fname, notes, view_url]`.  A non-record value raises
`AttributeError` in Python, modelled as `Except.error`. -/
def gsheetRow (k : Str) (v : CVal) : Except Str (List Str) :=
  match v with
  | CVal.record r => Except.ok (r.parsed ++ [k, r.notes, r.view_url])
  | _ => Except.error "AttributeError: no attribute get".toList

/-- The rows built by `batch_importer.write_to_gsheet`: every cache entry
except the `"examples"` key becomes a row. -/
def write_to_gsheet_rows (cache : Cache) : Except Str (List (List Str)) :=
  (cache.filter (fun kv => decide (kv.1 ≠ EXAMPLES_KEY))).mapM
    (fun kv => gsheetRow kv.1 kv.2)

/-! ### app.py -/

/-- The shape shared by the hard-coded examples of `app.gpt_query` and the
fields of stored examples that its rendering reads. -/
structure UiEx where
  filename : Str
  parsed : List Str
  notes : Str
deriving DecidableEq

def toUiEx (e : ExEntry) : UiEx := ⟨e.filename, e.parsed, e.notes⟩

/-- The three examples hard-coded in `app.gpt_query` (`EXAMPLES`). -/
def appFixedExamples : List UiEx :=
  [⟨"3103159_Dettol_Soap_Cool_Menthol_96X135MM_9COL.pdf".toList,
    ["3103159".toList, "Dettol".toList, "Soap_Cool_Menthol".toList,
     "96X135MM".toList, "9COL".toList],
    "Standard Dettol soap spec. Product+Variant combined: Soap_Cool_Menthol.".toList⟩,
   ⟨"ITM-GER-004_Germol_Soap_Lemon_174X95MM_5COL.png".toList,
    ["ITM-GER-004".toList, "Germol".toList, "Soap_Lemon".toList,
     "174X95MM".toList, "5COL".toList],
    "Non-numeric code example. Product+Variant is Soap_Lemon.".toList⟩,
   ⟨"20042586_Godrej_Soap_LimeAloeVera_126X169MM_8COL.pdf".toList,
    ["20042586".toList, "Godrej".toList, "Soap_LimeAloeVera".toList,
     "126X169MM".toList, "8COL".toList],
    "Godrej LimeAloeVera, 8 colors. Product+Variant combined: Soap_LimeAloeVera.".toList⟩]

/-- `examples = cache.get(EXAMPLES_KEY, [])[:2] + EXAMPLES` in
`app.gpt_query`. -/
def gpt_query_examples (cache : Cache) : List UiEx :=
  ((getExamples cache).take 2).map toUiEx ++ appFixedExamples

/-- One context line: `f"{ex['filename']} => {ex['parsed']} (Note: {ex['notes']})"`. -/
def uiExampleLine (e : UiEx) : Str :=
  e.filename ++ " => ".toList ++ pyStrListRepr e.parsed ++
    " (Note: ".toList ++ e.notes ++ [')']

/-- `context_examples` of `app.gpt_query`. -/
def gpt_query_context (cache : Cache) : Str :=
  List.intercalate ['\n'] ((gpt_query_examples cache).map uiExampleLine)

/-- The system message of `app.gpt_query` (the trailing component is a plain
string, so its doubled braces stay doubled). -/
def gpt_query_system_msg (cache : Cache) : Str :=
  ("You are a filename parser for packaging spec files. " ++
   "Every filename is always in the format: " ++
   "ItemCode_Brand_Product+Variant_Dimensions_NoOfColours.ext — always 5 parts, underscores as delimiters. " ++
   "Product+Variant may have internal underscores. Do NOT split Product+Variant further. " ++
   "Here are examples:\n").toList ++
  gpt_query_context cache ++
  ("\nGiven a new filename, split it into the 5 parts as shown. " ++
   "Return as JSON: \x7b\x7b\"parsed\": [...], \"notes\": \"...\"\x7d\x7d").toList

/-- The completion oracle of the UI query path: model, system message, user
message. -/
abbrev UiCompletion := Str → Str → Str → Except Str Str

/-- `app.gpt_query`: try `"gpt-4o"`, on failure fall back once to
`"gpt-3.5-turbo"`, on a second failure return both error texts. -/
def gpt_query (complete : UiCompletion) (user_query : Str) (cache : Cache) :
    Str :=
  let sys := gpt_query_system_msg cache
  match complete "gpt-4o".toList sys user_query with
  | Except.ok r => r
  | Except.error e =>
    match complete "gpt-3.5-turbo".toList sys user_query with
    | Except.ok r => r
    | Except.error ee =>
        "OpenAI API Error: ".toList ++ e ++ "\nFallback Error: ".toList ++ ee

/-- The rows built by `app.load_cache_df` (same shape as the sheet rows). -/
def load_cache_df_rows (cache : Cache) : Except Str (List (List Str)) :=
  (cache.filter (fun kv => decide (kv.1 ≠ EXAMPLES_KEY))).mapM
    (fun kv => gsheetRow kv.1 kv.2)

/-- The edit list of `app.main`:
`filenames = [fname for fname in cache if fname != EXAMPLES_KEY]`. -/
def app_edit_filenames (cache : Cache) : List Str :=
  (dkeys cache).filter (fun k => decide (k ≠ EXAMPLES_KEY))

/-! ### drive_file_renamer.py -/

/-- `get_target_filename`: join the 5 fields with underscores and append the
original extension. -/
def get_target_filename (parsed_fields : List Str) (orig_ext : Str) : Str :=
  List.intercalate ['_'] parsed_fields ++ orig_ext

/-- `v.get('parsed', [""] * 5)`.  (Only record values reach this accessor in
well-formed caches; on a reserved-key payload Python would raise.) -/
def getParsed : CVal → List Str
  | CVal.record r => r.parsed
  | _ => empty5

/-- `cache_by_old = {k: v for k, v in cache.items() if k not in ['examples',
'rename_log']}`. -/
def cache_by_old (cache : Cache) : Cache :=
  cache.filter (fun kv => decide (kv.1 ∉ reservedKeys))

/-- The canonical target name of the record `v` cached under key `k`. -/
def tnameOf (k : Str) (v : CVal) : Str :=
  get_target_filename (getParsed v) (pySplitext k).2

/-- `cache_by_new`: index every non-reserved record by its computed target
name. -/
def cache_by_new (cache : Cache) : Cache :=
  (cache_by_old cache).foldl (fun acc kv => dset acc (tnameOf kv.1 kv.2) kv.2) []

/-- The state threaded through the rename loop: the (mutated) cache, the
drive contents after the executed renames, the run's rename log, and the two
counters. -/
structure PlanState where
  cache : Cache
  drive : List DFile
  log : List RenEntry
  renamed : Nat
  skipped : Nat
deriving DecidableEq

/-- `cache_by_old.get(curr_name) or cache_by_new.get(curr_name)`. -/
def resolveEntry (byOld byNew : Cache) (n : Str) : Option CVal :=
  match dget byOld n with
  | some v => some v
  | none => dget byNew n

/-- One iteration of the loop in `batch_rename_drive_files`: resolve the
record by current or intended name; skip when unresolved or already at the
target name; otherwise rename the drive file, log the rename, and move the
cache key when the old name is present and the target name absent. -/
def planFile (byOld byNew : Cache) (s : PlanState) (f : DFile) : PlanState :=
  match resolveEntry byOld byNew f.name with
  | some v =>
    let tgt := get_target_filename (getParsed v) (pySplitext f.name).2
    if f.name = tgt then
      { s with skipped := s.skipped + 1, drive := s.drive ++ [f] }
    else
      { cache :=
          if dmem s.cache f.name && ! dmem s.cache tgt then
            dmove s.cache f.name tgt
          else s.cache
        drive := s.drive ++ [⟨f.id, tgt⟩]
        log := s.log ++ [⟨f.id, f.name, tgt⟩]
        renamed := s.renamed + 1
        skipped := s.skipped }
  | none => { s with skipped := s.skipped + 1, drive := s.drive ++ [f] }

/-- `drive_file_renamer.batch_rename_drive_files` over a completed listing:
run the loop, then store the run's log under the cache's `"rename_log"` key
(the separate log file also receives exactly `.log`). -/
def batch_rename_drive_files (cache : Cache) (drive : List DFile) : PlanState :=
  let byOld := cache_by_old cache
  let byNew := cache_by_new cache
  let s := drive.foldl (planFile byOld byNew) ⟨cache, [], [], 0, 0⟩
  { s with cache := dset s.cache RENAME_LOG_KEY (CVal.renameLog s.log) }

/-- The rename decision for one drive file, a function of the two snapshot
indexes only (the threaded cache never influences the emitted log). -/
def decideRename (byOld byNew : Cache) (f : DFile) : Option RenEntry :=
  match resolveEntry byOld byNew f.name with
  | some v =>
    let tgt := get_target_filename (getParsed v) (pySplitext f.name).2
    if f.name = tgt then none else some ⟨f.id, f.name, tgt⟩
  | none => none

/-- The drive name a listed file carries after the run. -/
def outName (byOld byNew : Cache) (f : DFile) : Str :=
  match decideRename byOld byNew f with
  | some e => e.new_name
  | none => f.name

/-- Provenance of an entry of the planner's working cache relative to the
starting cache `c`: either an untouched entry of `c`, or a record of `c`
moved to its (fresh) computed target name. -/
def Origin (c : Cache) (k : Str) (v : CVal) : Prop :=
  (k, v) ∈ c ∨
    ∃ k0 r, (k0, CVal.record r) ∈ c ∧ k0 ∉ reservedKeys ∧
      v = CVal.record r ∧ k = tnameOf k0 (CVal.record r) ∧ k ∉ dkeys c

/-- Invariant threaded through the rename loop started on cache `c`: every
entry has an `Origin`, keys stay unique, and entries already at their target
name are never touched. -/
def PlanInv (c : Cache) (s : Cache) : Prop :=
  (∀ kv ∈ s, Origin c kv.1 kv.2) ∧
  (dkeys s).Nodup ∧
  (∀ k r, (k, CVal.record r) ∈ c → k ∉ reservedKeys →
    tnameOf k (CVal.record r) = k → (k, CVal.record r) ∈ s)

/-! ### Well-formedness of persisted caches -/

def isRecordVal : CVal → Bool
  | CVal.record _ => true
  | _ => false

/-- Every non-reserved key holds a parse record. -/
def WFRecords (c : Cache) : Prop :=
  ∀ kv ∈ c, kv.1 ∉ reservedKeys → isRecordVal kv.2 = true

/-- Every non-reserved record has 5 fields whose underscore-join is dot-free
(so renaming never changes the recomputed extension). -/
def WFFields (c : Cache) : Prop :=
  ∀ kv ∈ c, kv.1 ∉ reservedKeys →
    (getParsed kv.2).length = 5 ∧
      '.' ∉ List.intercalate ['_'] (getParsed kv.2)

/-- Every non-reserved record's target name is its own key or a fresh name
(no target collides with another existing key). -/
def WFTargets (c : Cache) : Prop :=
  ∀ kv ∈ c, kv.1 ∉ reservedKeys →
    tnameOf kv.1 kv.2 = kv.1 ∨ tnameOf kv.1 kv.2 ∉ dkeys c

/-- Dict keys are unique. -/
def WFKeys (c : Cache) : Prop := (dkeys c).Nodup

theorem firstDotIdx_eq_none {l : Str} : firstDotIdx l = none ↔ '.' ∉ l := by
  induction l with
  | nil => simp [firstDotIdx]
  | cons c cs ih =>
    by_cases hc : c = '.'
    · subst hc; simp [firstDotIdx]
    · simp [firstDotIdx, hc, Ne.symm hc, Option.map_eq_none', ih]

theorem firstDotIdx_append {a b : Str} (ha : '.' ∉ a) :
    firstDotIdx (a ++ '.' :: b) = some a.length := by
  induction a with
  | nil => simp [firstDotIdx]
  | cons c cs ih =>
    have hc : c ≠ '.' := by rintro rfl; exact ha (List.mem_cons_self _ _)
    have hcs : '.' ∉ cs := fun h => ha (List.mem_cons_of_mem _ h)
    simp [firstDotIdx, hc, ih hcs]

theorem pySplitext_no_dot {p : Str} (h : '.' ∉ p) : pySplitext p = (p, []) := by
  have hrev : '.' ∉ p.reverse := fun hm => h (List.mem_reverse.1 hm)
  unfold pySplitext
  rw [firstDotIdx_eq_none.2 hrev]
  rfl

theorem pySplitext_append {a b : Str} (ha : '.' ∉ a) (hne : a ≠ [])
    (hb : '.' ∉ b) : pySplitext (a ++ '.' :: b) = (a, '.' :: b) := by
  have hbrev : '.' ∉ b.reverse := fun hm => hb (List.mem_reverse.1 hm)
  have hidx : firstDotIdx (a ++ '.' :: b).reverse = some b.reverse.length := by
    rw [show (a ++ '.' :: b).reverse = b.reverse ++ '.' :: a.reverse by simp]
    exact firstDotIdx_append hbrev
  have hi : (a ++ '.' :: b).length - (b.reverse.length + 1) = a.length := by
    simp only [List.length_append, List.length_cons, List.length_reverse]
    omega
  have htake : (a ++ '.' :: b).take a.length = a := List.take_left a _
  have hdrop : (a ++ '.' :: b).drop a.length = '.' :: b := List.drop_left a _
  have hany : ((a ++ '.' :: b).take a.length).any
      (fun c => decide (c ≠ '.')) = true := by
    rw [htake, List.any_eq_true]
    obtain ⟨x, xs, rfl⟩ := List.exists_cons_of_ne_nil hne
    have hx : x ≠ '.' := by rintro rfl; exact ha (List.mem_cons_self _ _)
    exact ⟨x, List.mem_cons_self _ _, by simpa using hx⟩
  unfold pySplitext
  rw [hidx]
  simp only [pySplitextAux, hi]
  rw [if_pos hany, htake, hdrop]

theorem firstDotIdx_some {l : Str} {k : Nat} (h : firstDotIdx l = some k) :
    ∃ u v, l = u ++ '.' :: v ∧ u.length = k ∧ '.' ∉ u := by
  induction l generalizing k with
  | nil => simp [firstDotIdx] at h
  | cons c cs ih =>
    by_cases hc : c = '.'
    · subst hc
      simp [firstDotIdx] at h
      exact ⟨[], cs, by simp, by simp [← h], by simp⟩
    · simp [firstDotIdx, hc] at h
      obtain ⟨k', hk', rfl⟩ := h
      obtain ⟨u, v, rfl, hlen, hu⟩ := ih hk'
      exact ⟨c :: u, v, by simp, by simp [hlen], by
        intro hmem
        rcases List.mem_cons.1 hmem with h1 | h1
        · exact hc h1.symm
        · exact hu h1⟩

/-- The extension returned by `pySplitext` is empty or a dot followed by a
dot-free tail. -/
theorem pySplitext_ext_shape (p : Str) :
    (pySplitext p).2 = [] ∨
      ∃ r, (pySplitext p).2 = '.' :: r ∧ '.' ∉ r := by
  unfold pySplitext
  cases hidx : firstDotIdx p.reverse with
  | none => simp [pySplitextAux]
  | some k =>
    obtain ⟨u, v, hrev, hlen, hu⟩ := firstDotIdx_some hidx
    have hp : p = v.reverse ++ '.' :: u.reverse := by
      have := congrArg List.reverse hrev
      simpa using this
    have hplen : p.length = v.length + (k + 1) := by
      have h1 : p.length = p.reverse.length := by simp
      rw [h1, hrev]
      simp only [List.length_append, List.length_cons]
      omega
    have hi : p.length - (k + 1) = v.reverse.length := by
      simp only [List.length_reverse]; omega
    have hur : '.' ∉ u.reverse := fun hm => hu (List.mem_reverse.1 hm)
    simp only [pySplitextAux]
    by_cases hany : (p.take (p.length - (k + 1))).any
        (fun c => decide (c ≠ '.')) = true
    · rw [if_pos hany]
      refine Or.inr ⟨u.reverse, ?_, hur⟩
      show p.drop (p.length - (k + 1)) = '.' :: u.reverse
      rw [hi]
      conv_lhs => rw [hp]
      exact List.drop_left v.reverse ('.' :: u.reverse)
    · rw [if_neg hany]
      exact Or.inl rfl

/-- If `j` is non-empty and dot-free, then appending any `pySplitext`
extension `e` to it yields a name whose `pySplitext` is exactly `(j, e)`. -/
theorem pySplitext_join {j : Str} (hj : '.' ∉ j) (hne : j ≠ []) (p : Str) :
    pySplitext (j ++ (pySplitext p).2) = (j, (pySplitext p).2) := by
  rcases pySplitext_ext_shape p with h | ⟨r, h, hr⟩
  · rw [h]; simpa using pySplitext_no_dot hj
  · rw [h]; exact pySplitext_append hj hne hr

theorem splitFirst_eq_none {sep : Char} {s : Str} :
    splitFirst sep s = none ↔ sep ∉ s := by
  induction s with
  | nil => simp [splitFirst]
  | cons c cs ih =>
    by_cases hc : c = sep
    · subst hc; simp [splitFirst]
    · have h1 : sep ≠ c := Ne.symm hc
      simp [splitFirst, hc, Option.map_eq_none', ih, h1]

theorem splitFirst_eq_some {sep : Char} {s a b : Str}
    (h : splitFirst sep s = some (a, b)) : s = a ++ sep :: b ∧ sep ∉ a := by
  induction s generalizing a b with
  | nil => simp [splitFirst] at h
  | cons c cs ih =>
    by_cases hc : c = sep
    · subst hc
      simp only [splitFirst, if_pos rfl, Option.some.injEq, Prod.mk.injEq] at h
      obtain ⟨rfl, rfl⟩ := h
      exact ⟨by simp, by simp⟩
    · rw [splitFirst, if_neg hc] at h
      cases hsf : splitFirst sep cs with
      | none => rw [hsf] at h; simp at h
      | some ab =>
        rw [hsf] at h
        simp only [Option.map_some', Option.some.injEq, Prod.mk.injEq] at h
        obtain ⟨h1, h2⟩ := h
        obtain ⟨hcs, ha'⟩ := ih (a := ab.1) (b := ab.2) (by rw [hsf])
        subst h2
        rw [← h1]
        refine ⟨by rw [hcs]; simp, ?_⟩
        intro hmem
        rcases List.mem_cons.1 hmem with hm | hm
        · exact hc hm.symm
        · exact ha' hm

theorem splitFirst_append {sep : Char} {a : Str} (b : Str) (ha : sep ∉ a) :
    splitFirst sep (a ++ sep :: b) = some (a, b) := by
  induction a with
  | nil => simp [splitFirst]
  | cons c cs ih =>
    have hc : c ≠ sep := by rintro rfl; exact ha (List.mem_cons_self _ _)
    have hcs : sep ∉ cs := fun h => ha (List.mem_cons_of_mem _ h)
    simp [splitFirst, hc, ih hcs]

/-- The number of pieces produced by Python's bounded split:
`min maxsplit (count of sep) + 1`. -/
theorem pySplit_length (sep : Char) (m : Nat) (s : Str) :
    (pySplit sep m s).length = min m (s.count sep) + 1 := by
  induction m generalizing s with
  | zero => simp [pySplit]
  | succ n ih =>
    cases hsf : splitFirst sep s with
    | none =>
      have : sep ∉ s := splitFirst_eq_none.1 hsf
      simp [pySplit, hsf, List.count_eq_zero.2 this]
    | some ab =>
      obtain ⟨a, b⟩ := ab
      obtain ⟨rfl, ha⟩ := splitFirst_eq_some hsf
      have hca : List.count sep a = 0 := List.count_eq_zero.2 ha
      have hcount : (a ++ sep :: b).count sep = b.count sep + 1 := by
        simp [List.count_append, List.count_cons, hca]
      simp only [pySplit, hsf, List.length_cons, ih, hcount]
      omega

/-! ### Claim C1 (corrected): the rule parser succeeds iff the stem splits
into exactly 5 pieces, i.e. iff the stem contains at least 4 underscores;
emptiness of the pieces is not checked. -/

/-- C1 (amended): `parse_filename` succeeds — returning the 5 pieces obtained
by splitting the extension-stripped stem at its first 4 underscores together
with the fixed standard-parse note — if and only if the stem contains at
least 4 underscores; on every other filename it returns `none` (a normal
branch, not an error).  Non-emptiness of the pieces plays no role. -/
theorem parse_filename_succeeds_iff_five_pieces (f : Str) :
    (parse_filename f = some (pySplit '_' 4 (pySplitext f).1, stdNote) ↔
      4 ≤ (pySplitext f).1.count '_') ∧
    (parse_filename f = none ↔ (pySplitext f).1.count '_' < 4) := by
  have hlen : (pySplit '_' 4 (pySplitext f).1).length =
      min 4 ((pySplitext f).1.count '_') + 1 := pySplit_length _ _ _
  unfold parse_filename
  by_cases h : 4 ≤ (pySplitext f).1.count '_'
  · have : (pySplit '_' 4 (pySplitext f).1).length = 5 := by
      rw [hlen]; omega
    simp [this]; omega
  · have : (pySplit '_' 4 (pySplitext f).1).length ≠ 5 := by
      rw [hlen]; omega
    simp [this]; omega

/-- C1 counterexample: on `"a__b_c_d.pdf"` the split yields 5 pieces one of
which is empty, yet the parser succeeds — refuting the claim that success
requires 5 *non-empty* pieces. -/
theorem parse_filename_accepts_empty_piece :
    parse_filename "a__b_c_d.pdf".toList
      = some (["a".toList, [], "b".toList, "c".toList, "d".toList], stdNote) ∧
    ¬ (∀ p ∈ ["a".toList, ([] : Str), "b".toList, "c".toList, "d".toList],
        p ≠ []) := by
  constructor
  · decide
  · decide

/-! ### Claim C2 (code bug): the spec scenarios (and the few-shot examples
hard-coded in `app.py`) give the parse
`["3103159","Dettol","Soap_Cool_Menthol","96X135MM","9COL"]`, but
`parse_filename` splits at the *first* four underscores, keeping the
combined remainder in the *last* field. -/

/-- C2: evaluating the grammar parser at the two spec scenario filenames.
The code returns `["3103159","Dettol","Soap","Cool","Menthol_96X135MM_9COL"]`
and `["ITM-GER-004","Germol","Soap","Lemon","174X95MM_5COL"]`, not the fields
claimed by the spec and by the code's own few-shot examples. -/
theorem parse_filename_divergence_on_spec_scenarios :
    parse_filename "3103159_Dettol_Soap_Cool_Menthol_96X135MM_9COL.pdf".toList
      = some (["3103159".toList, "Dettol".toList, "Soap".toList, "Cool".toList,
               "Menthol_96X135MM_9COL".toList], stdNote) ∧
    parse_filename "ITM-GER-004_Germol_Soap_Lemon_174X95MM_5COL.png".toList
      = some (["ITM-GER-004".toList, "Germol".toList, "Soap".toList,
               "Lemon".toList, "174X95MM_5COL".toList], stdNote) ∧
    ["3103159".toList, "Dettol".toList, "Soap".toList, "Cool".toList,
     "Menthol_96X135MM_9COL".toList] ≠
      ["3103159".toList, "Dettol".toList, "Soap_Cool_Menthol".toList,
       "96X135MM".toList, "9COL".toList] := by
  refine ⟨by decide, by decide, by decide⟩

/-! ### Dictionary lemmas -/

theorem key_mem_of_mem {α : Type} {l : List (Str × α)} {k : Str} {v : α}
    (h : (k, v) ∈ l) : k ∈ dkeys l :=
  List.mem_map.2 ⟨(k, v), h, rfl⟩

theorem dget_mem {α : Type} {l : List (Str × α)} {k : Str} {v : α}
    (h : dget l k = some v) : (k, v) ∈ l := by
  induction l with
  | nil => simp [dget] at h
  | cons kv t ih =>
    obtain ⟨a, b⟩ := kv
    by_cases hk : a = k
    · subst hk
      rw [dget, if_pos rfl] at h
      obtain rfl := Option.some.inj h
      exact List.mem_cons_self _ _
    · rw [dget, if_neg hk] at h
      exact List.mem_cons_of_mem _ (ih h)

theorem mem_dget {α : Type} {l : List (Str × α)} {k : Str} {v : α}
    (h : (k, v) ∈ l) : ∃ w, dget l k = some w := by
  induction l with
  | nil => simp at h
  | cons kv t ih =>
    obtain ⟨a, b⟩ := kv
    by_cases hk : a = k
    · exact ⟨b, by rw [dget, if_pos hk]⟩
    · rcases List.mem_cons.1 h with h1 | h1
      · exact absurd (congrArg Prod.fst h1.symm) hk
      · obtain ⟨w, hw⟩ := ih h1
        exact ⟨w, by rw [dget, if_neg hk]; exact hw⟩

theorem dget_of_mem_nodup {α : Type} {l : List (Str × α)} {k : Str} {v : α}
    (hn : (dkeys l).Nodup) (h : (k, v) ∈ l) : dget l k = some v := by
  induction l with
  | nil => simp at h
  | cons kv t ih =>
    obtain ⟨a, b⟩ := kv
    have hn' : (dkeys t).Nodup := (List.nodup_cons.1 hn).2
    have ha : a ∉ dkeys t := (List.nodup_cons.1 hn).1
    rcases List.mem_cons.1 h with h1 | h1
    · obtain ⟨rfl, rfl⟩ : k = a ∧ v = b :=
        ⟨congrArg Prod.fst h1, congrArg Prod.snd h1⟩
      rw [dget, if_pos rfl]
    · have hk : a ≠ k := by
        rintro rfl
        exact ha (key_mem_of_mem h1)
      rw [dget, if_neg hk]
      exact ih hn' h1

theorem dget_dset_self {α : Type} (l : List (Str × α)) (k : Str) (v : α) :
    dget (dset l k v) k = some v := by
  induction l with
  | nil => simp [dset, dget]
  | cons kv t ih =>
    by_cases hk : kv.1 = k
    · rw [dset, if_pos hk, dget, if_pos rfl]
    · rw [dset, if_neg hk, dget, if_neg hk]
      exact ih

theorem dget_dset_ne {α : Type} (l : List (Str × α)) {k k' : Str} (v : α)
    (h : k' ≠ k) : dget (dset l k v) k' = dget l k' := by
  induction l with
  | nil =>
    have h1 : k ≠ k' := fun hh => h hh.symm
    simp only [dset, dget, if_neg h1]
  | cons kv t ih =>
    by_cases hk : kv.1 = k
    · rw [dset, if_pos hk, dget, dget]
      have h1 : k ≠ k' := fun hh => h hh.symm
      rw [if_neg h1, if_neg (hk ▸ h1)]
    · rw [dset, if_neg hk, dget, dget]
      by_cases hk' : kv.1 = k'
      · rw [if_pos hk', if_pos hk']
      · rw [if_neg hk', if_neg hk']
        exact ih

theorem mem_dset_elim {α : Type} {l : List (Str × α)} {k a : Str} {v b : α}
    (h : (a, b) ∈ dset l k v) : (a = k ∧ b = v) ∨ (a, b) ∈ l := by
  induction l with
  | nil =>
    rcases List.mem_singleton.1 h with h1
    exact Or.inl ⟨congrArg Prod.fst h1, congrArg Prod.snd h1⟩
  | cons kv t ih =>
    by_cases hk : kv.1 = k
    · rw [dset, if_pos hk] at h
      rcases List.mem_cons.1 h with h1 | h1
      · exact Or.inl ⟨congrArg Prod.fst h1, congrArg Prod.snd h1⟩
      · exact Or.inr (List.mem_cons_of_mem _ h1)
    · rw [dset, if_neg hk] at h
      rcases List.mem_cons.1 h with h1 | h1
      · exact Or.inr (List.mem_cons.2 (Or.inl h1))
      · rcases ih h1 with h2 | h2
        · exact Or.inl h2
        · exact Or.inr (List.mem_cons_of_mem _ h2)

theorem mem_dset_of_ne {α : Type} {l : List (Str × α)} {k a : Str} {v b : α}
    (h : (a, b) ∈ l) (hne : a ≠ k) : (a, b) ∈ dset l k v := by
  induction l with
  | nil => simp at h
  | cons kv t ih =>
    by_cases hk : kv.1 = k
    · rw [dset, if_pos hk]
      rcases List.mem_cons.1 h with h1 | h1
      · exact absurd (hk ▸ congrArg Prod.fst h1.symm) (fun hh => hne hh.symm)
      · exact List.mem_cons_of_mem _ h1
    · rw [dset, if_neg hk]
      rcases List.mem_cons.1 h with h1 | h1
      · exact List.mem_cons.2 (Or.inl h1)
      · exact List.mem_cons_of_mem _ (ih h1)

theorem dkeys_dset_of_mem {α : Type} {l : List (Str × α)} {k : Str} (v : α)
    (h : k ∈ dkeys l) : dkeys (dset l k v) = dkeys l := by
  induction l with
  | nil => simp [dkeys] at h
  | cons kv t ih =>
    by_cases hk : kv.1 = k
    · rw [dset, if_pos hk]
      show k :: dkeys t = kv.1 :: dkeys t
      rw [hk]
    · rw [dset, if_neg hk]
      have h1 : k ∈ dkeys t := by
        rcases List.mem_cons.1 h with h2 | h2
        · exact absurd h2.symm hk
        · exact h2
      show kv.1 :: dkeys (dset t k v) = kv.1 :: dkeys t
      rw [ih h1]

theorem dkeys_dset_of_not_mem {α : Type} {l : List (Str × α)} {k : Str} (v : α)
    (h : k ∉ dkeys l) : dkeys (dset l k v) = dkeys l ++ [k] := by
  induction l with
  | nil => simp [dset, dkeys]
  | cons kv t ih =>
    have hk : kv.1 ≠ k := by
      rintro rfl
      exact h (show kv.1 ∈ dkeys (kv :: t) from List.mem_cons_self _ _)
    have h1 : k ∉ dkeys t := fun hh =>
      h (show k ∈ dkeys (kv :: t) from List.mem_cons_of_mem _ hh)
    rw [dset, if_neg hk]
    show kv.1 :: dkeys (dset t k v) = (kv.1 :: dkeys t) ++ [k]
    rw [ih h1, List.cons_append]

theorem nodup_dkeys_dset {α : Type} {l : List (Str × α)} {k : Str} (v : α)
    (h : (dkeys l).Nodup) : (dkeys (dset l k v)).Nodup := by
  by_cases hk : k ∈ dkeys l
  · rw [dkeys_dset_of_mem v hk]; exact h
  · rw [dkeys_dset_of_not_mem v hk]
    refine List.Nodup.append h (List.nodup_singleton k) ?_
    intro x hx hx2
    rw [List.mem_singleton] at hx2
    subst hx2
    exact hk hx

theorem dmem_iff {α : Type} {l : List (Str × α)} {k : Str} :
    dmem l k = true ↔ k ∈ dkeys l := by
  constructor
  · intro h
    obtain ⟨v, hv⟩ := Option.isSome_iff_exists.1 h
    exact key_mem_of_mem (dget_mem hv)
  · intro h
    obtain ⟨⟨a, b⟩, hm, rfl⟩ := List.mem_map.1 h
    obtain ⟨w, hw⟩ := mem_dget hm
    simp [dmem, hw]

theorem dmem_eq_false_iff {α : Type} {l : List (Str × α)} {k : Str} :
    dmem l k = false ↔ k ∉ dkeys l := by
  rw [← Bool.not_eq_true, not_iff_not]
  exact dmem_iff

/-! ### Example Store lemmas -/

theorem getExamples_dset_exampleList (c : Cache) (l : List ExEntry) :
    getExamples (dset c EXAMPLES_KEY (CVal.exampleList l)) = l := by
  unfold getExamples
  rw [dget_dset_self]

theorem getExamples_dset_ne (c : Cache) {k : Str} (v : CVal)
    (h : k ≠ EXAMPLES_KEY) :
    getExamples (dset c k v) = getExamples c := by
  unfold getExamples
  rw [dget_dset_ne _ _ (fun hh => h hh.symm)]

theorem getExamples_dset_record (c : Cache) (r : PRec) :
    getExamples (dset c EXAMPLES_KEY (CVal.record r)) = [] := by
  unfold getExamples
  rw [dget_dset_self]

theorem promoteExample_length_le (l : List ExEntry) (e : ExEntry) :
    (promoteExample l e).length ≤ 20 := by
  simp only [promoteExample]
  by_cases h2 : (l ++ [e]).length > 20
  · rw [if_pos h2]
    simp only [List.length_drop]
    omega
  · rw [if_neg h2]
    omega

theorem getExamples_processFile_le (complete : Completion) (c : Cache)
    (f : DFile) (h : (getExamples c).length ≤ 20) :
    (getExamples (processFile complete c f).1).length ≤ 20 := by
  cases hg : dget c f.name with
  | some v =>
    cases v with
    | record r =>
      simp only [processFile, hg]
      by_cases hk : f.name = EXAMPLES_KEY
      · rw [hk, getExamples_dset_record]
        simp
      · rw [getExamples_dset_ne _ _ hk]
        exact h
    | exampleList l => simp only [processFile, hg]; exact h
    | renameLog l => simp only [processFile, hg]; exact h
  | none =>
    simp only [processFile, hg]
    have hc1 : (getExamples (dset c f.name (CVal.record
        (match parse_filename f.name with
         | some pn => ⟨pn.1, pn.2, "Rule".toList, none, viewUrl f.id⟩
         | none =>
           let pn := gpt_parse_filename complete f.name c
           ⟨pn.1, pn.2, "GPT".toList, none, viewUrl f.id⟩)))).length ≤ 20 := by
      by_cases hk : f.name = EXAMPLES_KEY
      · rw [hk, getExamples_dset_record]
        simp
      · rw [getExamples_dset_ne _ _ hk]
        exact h
    split
    · rw [getExamples_dset_exampleList]
      exact promoteExample_length_le _ _
    · exact hc1

theorem getExamples_batch_le (complete : Completion) :
    ∀ (files : List DFile) (c : Cache) (b : Bool),
      (getExamples c).length ≤ 20 →
      (getExamples (files.foldl
        (fun acc f =>
          let cu := processFile complete acc.1 f
          (cu.1, acc.2 || cu.2)) (c, b)).1).length ≤ 20 := by
  intro files
  induction files with
  | nil => intro c b h; exact h
  | cons f fs ih =>
    intro c b h
    exact ih _ _ (getExamples_processFile_le complete c f h)

/-! ### Claim C4 (confirmed): the Example Store is a 20-bounded FIFO queue. -/

/-- C4: starting from any store with at most 20 entries, any sequence of
promotions leaves at most 20 entries; a promotion at the cap evicts exactly
the oldest entry, and below the cap evicts nothing; and the whole batch run
preserves the 20-entry bound of the store embedded in the cache. -/
theorem example_store_bounded_fifo :
    (∀ (l es : List ExEntry), l.length ≤ 20 →
      (es.foldl promoteExample l).length ≤ 20) ∧
    (∀ (l : List ExEntry) (e : ExEntry), l.length = 20 →
      promoteExample l e = l.tail ++ [e]) ∧
    (∀ (l : List ExEntry) (e : ExEntry), l.length < 20 →
      promoteExample l e = l ++ [e]) ∧
    (∀ (complete : Completion) (files : List DFile) (c : Cache),
      (getExamples c).length ≤ 20 →
      (getExamples (batch_parse_and_update_cache complete files c).1).length
        ≤ 20) := by
  refine ⟨?_, ?_, ?_, ?_⟩
  · intro l es
    induction es generalizing l with
    | nil => intro h; exact h
    | cons e es ih =>
      intro h
      exact ih _ (promoteExample_length_le _ e)
  · intro l e h
    have h21 : (l ++ [e]).length = 21 := by simp [h]
    simp only [promoteExample]
    rw [if_pos (by omega), h21]
    have h1 : (1 : Nat) ≤ l.length := by omega
    rw [show (21 - 20 : Nat) = 1 from rfl,
      List.drop_append_of_le_length h1, List.drop_one]
  · intro l e h
    have h2 : ¬ (l ++ [e]).length > 20 := by simp; omega
    simp only [promoteExample]
    rw [if_neg h2]
  · intro complete files c h
    exact getExamples_batch_le complete files c false h

/-- C4 witness: concrete instances of the bound and of the two promotion
shapes. -/
theorem example_store_bounded_fifo_check :
    (let e : ExEntry := ⟨"w".toList, [], [], [], none, []⟩
     ((List.replicate 6 e).foldl promoteExample
        (List.replicate 18 e)).length ≤ 20 ∧
     promoteExample (List.replicate 20 e) e
        = (List.replicate 20 e).tail ++ [e] ∧
     promoteExample (List.replicate 3 e) e = List.replicate 3 e ++ [e]) := by
  refine ⟨?_, ?_, ?_⟩
  · exact example_store_bounded_fifo.1 _ _ (by decide)
  · exact example_store_bounded_fifo.2.1 _ _ (by decide)
  · exact example_store_bounded_fifo.2.2.1 _ _ (by decide)

/-! ### Claim C8 (code bug): the `"rename_log"` reserved key written by the
renamer is treated as a filename by the sheet exporter, the UI table builder
and the UI edit list, which all skip only `"examples"`. -/

/-- C8: on a cache holding both reserved keys, the UI edit list contains
`"rename_log"` as if it were a filename, and both row builders raise
(`AttributeError` in Python) instead of skipping it. -/
theorem reserved_rename_log_treated_as_filename :
    (let c : Cache :=
      [("a.pdf".toList, CVal.record ⟨empty5, [], "GPT".toList, none, []⟩),
       (EXAMPLES_KEY, CVal.exampleList []),
       (RENAME_LOG_KEY, CVal.renameLog [])]
     RENAME_LOG_KEY ∈ app_edit_filenames c ∧
     write_to_gsheet_rows c
        = Except.error "AttributeError: no attribute get".toList ∧
     load_cache_df_rows c
        = Except.error "AttributeError: no attribute get".toList) := by
  refine ⟨by decide, by rfl, by rfl⟩

/-! ### Claim C5 (corrected): both Example Store consumers slice from the
front (`[:5]` and `[:2]`), i.e. they embed the *oldest* stored entries, not
the most recent ones. -/

/-- C5 (amended): the batch prompt builder embeds exactly the first 5 stored
examples (the oldest, by insertion order) and the UI system message embeds
exactly the first 2, deterministically: replacing the store by its first 5
(resp. 2) entries leaves each prompt unchanged. -/
theorem prompt_examples_take_oldest :
    (∀ (c : Cache) (filename : Str),
      build_gpt_prompt filename
          (dset c EXAMPLES_KEY (CVal.exampleList ((getExamples c).take 5)))
        = build_gpt_prompt filename c) ∧
    (∀ c : Cache,
      gpt_query_system_msg
          (dset c EXAMPLES_KEY (CVal.exampleList ((getExamples c).take 2)))
        = gpt_query_system_msg c) := by
  constructor
  · intro c filename
    simp only [build_gpt_prompt, getExamples_dset_exampleList, List.take_take,
      Nat.min_self]
  · intro c
    simp only [gpt_query_system_msg, gpt_query_context, gpt_query_examples,
      getExamples_dset_exampleList, List.take_take, Nat.min_self]

set_option maxRecDepth 8000

/-- C5 counterexample: with six stored examples `e1..e6`, the batch prompt
differs from the prompt built over the 5 most recent entries `e2..e6` (it
embeds the oldest five `e1..e5` instead); likewise the UI system message over
`e1,e2,e3` differs from the one over the 2 most recent `e2,e3`. -/
theorem prompt_examples_not_most_recent :
    (let mk : Str → ExEntry := fun n => ⟨n, [], [], [], none, []⟩
     let e1 := mk "e1".toList
     let e2 := mk "e2".toList
     let e3 := mk "e3".toList
     let e4 := mk "e4".toList
     let e5 := mk "e5".toList
     let e6 := mk "e6".toList
     build_gpt_prompt []
         [(EXAMPLES_KEY, CVal.exampleList [e1, e2, e3, e4, e5, e6])]
       ≠ build_gpt_prompt []
         [(EXAMPLES_KEY, CVal.exampleList [e2, e3, e4, e5, e6])] ∧
     gpt_query_system_msg [(EXAMPLES_KEY, CVal.exampleList [e1, e2, e3])]
       ≠ gpt_query_system_msg [(EXAMPLES_KEY, CVal.exampleList [e2, e3])]) := by
  exact ⟨by decide, by decide⟩

/-! ### Batch cache well-formedness preservation (for C3) -/

theorem WFRecords_dset_record {c : Cache} (k : Str) (r : PRec)
    (h : WFRecords c) : WFRecords (dset c k (CVal.record r)) := by
  intro kv hkv hres
  obtain ⟨a, b⟩ := kv
  rcases mem_dset_elim hkv with ⟨rfl, rfl⟩ | h1
  · rfl
  · exact h _ h1 hres

theorem WFRecords_dset_examples {c : Cache} (l : List ExEntry)
    (h : WFRecords c) :
    WFRecords (dset c EXAMPLES_KEY (CVal.exampleList l)) := by
  intro kv hkv hres
  obtain ⟨a, b⟩ := kv
  rcases mem_dset_elim hkv with ⟨rfl, rfl⟩ | h1
  · exact absurd (List.mem_cons_self _ _) hres
  · exact h _ h1 hres

theorem WFRecords_processFile (complete : Completion) {c : Cache} (f : DFile)
    (h : WFRecords c) : WFRecords (processFile complete c f).1 := by
  cases hg : dget c f.name with
  | some v =>
    cases v with
    | record r =>
      simp only [processFile, hg]
      exact WFRecords_dset_record _ _ h
    | exampleList l => simp only [processFile, hg]; exact h
    | renameLog l => simp only [processFile, hg]; exact h
  | none =>
    simp only [processFile, hg]
    split
    · exact WFRecords_dset_examples _ (WFRecords_dset_record _ _ h)
    · exact WFRecords_dset_record _ _ h

theorem processFile_keeps_record (complete : Completion) {c : Cache}
    (f : DFile) {k : Str} (hne : k ≠ EXAMPLES_KEY)
    (h : ∃ r, dget c k = some (CVal.record r)) :
    ∃ r', dget (processFile complete c f).1 k = some (CVal.record r') := by
  obtain ⟨r, hr⟩ := h
  cases hg : dget c f.name with
  | some v =>
    cases v with
    | record r0 =>
      simp only [processFile, hg]
      by_cases hk : f.name = k
      · subst hk
        exact ⟨_, dget_dset_self ..⟩
      · rw [dget_dset_ne _ _ (fun hh => hk hh.symm)]
        exact ⟨r, hr⟩
    | exampleList l => simp only [processFile, hg]; exact ⟨r, hr⟩
    | renameLog l => simp only [processFile, hg]; exact ⟨r, hr⟩
  | none =>
    simp only [processFile, hg]
    split
    · rw [dget_dset_ne _ _ hne]
      by_cases hk : f.name = k
      · subst hk
        exact ⟨_, dget_dset_self ..⟩
      · rw [dget_dset_ne _ _ (fun hh => hk hh.symm)]
        exact ⟨r, hr⟩
    · by_cases hk : f.name = k
      · subst hk
        exact ⟨_, dget_dset_self ..⟩
      · rw [dget_dset_ne _ _ (fun hh => hk hh.symm)]
        exact ⟨r, hr⟩

theorem processFile_establishes (complete : Completion) {c : Cache}
    (f : DFile) (hwf : WFRecords c) (hres : f.name ∉ reservedKeys) :
    ∃ r, dget (processFile complete c f).1 f.name = some (CVal.record r) := by
  have hneE : f.name ≠ EXAMPLES_KEY := by
    intro hh
    exact hres (hh ▸ List.mem_cons_self _ _)
  cases hg : dget c f.name with
  | some v =>
    have hrec : isRecordVal v = true := hwf _ (dget_mem hg) hres
    cases v with
    | record r =>
      simp only [processFile, hg]
      exact ⟨_, dget_dset_self ..⟩
    | exampleList l => simp [isRecordVal] at hrec
    | renameLog l => simp [isRecordVal] at hrec
  | none =>
    simp only [processFile, hg]
    split
    · rw [dget_dset_ne _ _ hneE]
      exact ⟨_, dget_dset_self ..⟩
    · exact ⟨_, dget_dset_self ..⟩

theorem batch_fold_keeps_record (complete : Completion) :
    ∀ (files : List DFile) (c : Cache) (b : Bool) (k : Str),
      k ≠ EXAMPLES_KEY →
      (∃ r, dget c k = some (CVal.record r)) →
      ∃ r', dget (files.foldl
          (fun acc f =>
            let cu := processFile complete acc.1 f
            (cu.1, acc.2 || cu.2)) (c, b)).1 k = some (CVal.record r') := by
  intro files
  induction files with
  | nil => intro c b k hk h; exact h
  | cons f fs ih =>
    intro c b k hk h
    exact ih _ _ k hk (processFile_keeps_record complete f hk h)

theorem WFRecords_batch_fold (complete : Completion) :
    ∀ (files : List DFile) (c : Cache) (b : Bool),
      WFRecords c →
      WFRecords (files.foldl
        (fun acc f =>
          let cu := processFile complete acc.1 f
          (cu.1, acc.2 || cu.2)) (c, b)).1 := by
  intro files
  induction files with
  | nil => intro c b h; exact h
  | cons f fs ih =>
    intro c b h
    exact ih _ _ (WFRecords_processFile complete f h)

theorem batch_totality_aux (complete : Completion) :
    ∀ (files : List DFile) (c : Cache) (b : Bool),
      WFRecords c →
      (∀ f ∈ files, f.name ∉ reservedKeys) →
      ∀ g ∈ files, ∃ r,
        dget (files.foldl
          (fun acc f =>
            let cu := processFile complete acc.1 f
            (cu.1, acc.2 || cu.2)) (c, b)).1 g.name = some (CVal.record r) := by
  intro files
  induction files with
  | nil => intro c b _ _ g hg; simp at hg
  | cons f fs ih =>
    intro c b hwf hres g hg
    have hresf : f.name ∉ reservedKeys := hres f (List.mem_cons_self _ _)
    have hneE : f.name ≠ EXAMPLES_KEY := by
      intro hh
      exact hresf (hh ▸ List.mem_cons_self _ _)
    rcases List.mem_cons.1 hg with rfl | hg1
    · exact batch_fold_keeps_record complete fs _ _ _ hneE
        (processFile_establishes complete g hwf hresf)
    · exact ih _ _ (WFRecords_processFile complete f hwf)
        (fun x hx => hres x (List.mem_cons_of_mem _ hx)) g hg1

/-! ### Claim C3 (corrected): the batch model-assisted parse makes exactly
one service call; on failure there is no secondary retry, the degraded record
has 5 empty fields and a notes string with the single failure description,
and the batch still gives every listed filename a record.  (A
`gpt-3.5-turbo` fallback exists only in the UI query path `app.gpt_query`,
modelled by `gpt_query`.) -/

/-- C3 (amended): in the batch pipeline, a failing model call yields the
degraded pair `([""]*5, "GPT error: <e>")` — `e` being the primary
(`"gpt-4o"`) failure text, with no second attempt — and the failure never
aborts the batch: every listed filename (over a well-formed cache, with no
file named like a reserved key) ends up with a ParseRecord in the cache. -/
theorem gpt_failure_single_attempt_and_batch_totality
    (complete : Completion) (files : List DFile) (c : Cache)
    (hwf : WFRecords c)
    (hres : ∀ f ∈ files, f.name ∉ reservedKeys) :
    (∀ f ∈ files, ∃ r,
      dget (batch_parse_and_update_cache complete files c).1 f.name
        = some (CVal.record r)) ∧
    (∀ filename e : Str,
      complete "gpt-4o".toList (build_gpt_prompt filename c)
          = Except.error e →
      gpt_parse_filename complete filename c
        = (empty5, "GPT error: ".toList ++ e)) := by
  constructor
  · intro g hg
    exact batch_totality_aux complete files c false hwf hres g hg
  · intro filename e h
    unfold gpt_parse_filename
    rw [h]

/-- C3 witness: a concrete always-failing service, one unparseable filename,
and the empty cache. -/
theorem gpt_failure_single_attempt_and_batch_totality_check :
    (∃ r, dget (batch_parse_and_update_cache
        (fun _ _ => Except.error "boom".toList)
        [⟨"7".toList, "q.pdf".toList⟩] []).1 "q.pdf".toList
      = some (CVal.record r)) ∧
    gpt_parse_filename (fun _ _ => Except.error "boom".toList)
        "q.pdf".toList []
      = (empty5, "GPT error: ".toList ++ "boom".toList) := by
  have h := gpt_failure_single_attempt_and_batch_totality
    (fun _ _ => Except.error "boom".toList)
    [⟨"7".toList, "q.pdf".toList⟩] []
    (fun kv hkv => absurd hkv (List.not_mem_nil _)) (by decide)
  exact ⟨h.1 ⟨"7".toList, "q.pdf".toList⟩ (by decide),
    h.2 "q.pdf".toList "boom".toList rfl⟩

/-- C3 counterexample: when the service is unreachable (both the primary and
the would-be secondary fail), the cached degraded record's notes mention only
the single attempted `"gpt-4o"` call — they do not contain any
`"gpt-3.5-turbo"` failure description, because the batch path never makes a
second attempt. -/
theorem gpt_failure_notes_single_service :
    (let complete : Completion := fun m _ =>
        Except.error ("service ".toList ++ m ++ " unreachable".toList)
     dget (batch_parse_and_update_cache complete
        [⟨"id1".toList, "Ab_Cd_Ef.pdf".toList⟩] []).1 "Ab_Cd_Ef.pdf".toList
       = some (CVal.record
          ⟨empty5, "GPT error: service gpt-4o unreachable".toList,
           "GPT".toList, none, viewUrl "id1".toList⟩) ∧
     strHas "gpt-3.5-turbo".toList
        "GPT error: service gpt-4o unreachable".toList = false) := by
  exact ⟨by decide, by decide⟩

/-! ### Joining and splitting lemmas (for C9/C10) -/

theorem intercalate5 (c : Char) (p0 p1 p2 p3 p4 : Str) :
    List.intercalate [c] [p0, p1, p2, p3, p4]
      = p0 ++ c :: (p1 ++ c :: (p2 ++ c :: (p3 ++ c :: p4))) := by
  simp [List.intercalate, List.intersperse_cons_cons, List.intersperse_singleton]

theorem pySplit_cons_of_first {sep : Char} {a : Str} (b : Str) (m : Nat)
    (ha : sep ∉ a) :
    pySplit sep (m + 1) (a ++ sep :: b) = a :: pySplit sep m b := by
  simp [pySplit, splitFirst_append b ha]

theorem pySplit_join {p0 p1 p2 p3 p4 : Str} (h0 : '_' ∉ p0) (h1 : '_' ∉ p1)
    (h2 : '_' ∉ p2) (h3 : '_' ∉ p3) :
    pySplit '_' 4
        (p0 ++ '_' :: (p1 ++ '_' :: (p2 ++ '_' :: (p3 ++ '_' :: p4))))
      = [p0, p1, p2, p3, p4] := by
  rw [show (4 : Nat) = 3 + 1 from rfl, pySplit_cons_of_first _ 3 h0,
    show (3 : Nat) = 2 + 1 from rfl, pySplit_cons_of_first _ 2 h1,
    show (2 : Nat) = 1 + 1 from rfl, pySplit_cons_of_first _ 1 h2,
    show (1 : Nat) = 0 + 1 from rfl, pySplit_cons_of_first _ 0 h3]
  rfl

theorem count_join5 {p0 p1 p2 p3 p4 : Str} (h0 : '_' ∉ p0) (h1 : '_' ∉ p1)
    (h2 : '_' ∉ p2) (h3 : '_' ∉ p3) (h4 : '_' ∉ p4) :
    (p0 ++ '_' :: (p1 ++ '_' :: (p2 ++ '_' :: (p3 ++ '_' :: p4)))).count '_'
      = 4 := by
  simp [List.count_append, List.count_cons, List.count_eq_zero.2 h0,
    List.count_eq_zero.2 h1, List.count_eq_zero.2 h2,
    List.count_eq_zero.2 h3, List.count_eq_zero.2 h4]

/-! ### Claim C9 (confirmed): a stem with exactly 4 underscores splitting
into 5 non-empty parts is reproduced exactly, and the new record carries
source `Rule`. -/

/-- C9: for a not-yet-cached filename whose stem is the underscore-join of 5
non-empty underscore-free parts (i.e. the stem has exactly 4 underscore
occurrences, splitting it into those 5 non-empty parts), the Grammar Parser
returns exactly those parts with the fixed note, and processing the file
writes a cache record with those fields and source `Rule`. -/
theorem grammar_parse_writes_rule_record
    (complete : Completion) (c : Cache) (f : DFile) (p0 p1 p2 p3 p4 : Str)
    (hnew : dget c f.name = none)
    (hstem : (pySplitext f.name).1
      = List.intercalate ['_'] [p0, p1, p2, p3, p4])
    (hparts : ∀ p ∈ [p0, p1, p2, p3, p4], p ≠ [] ∧ '_' ∉ p) :
    parse_filename f.name = some ([p0, p1, p2, p3, p4], stdNote) ∧
    dget (processFile complete c f).1 f.name
      = some (CVal.record ⟨[p0, p1, p2, p3, p4], stdNote, "Rule".toList,
          none, viewUrl f.id⟩) := by
  have h0 := hparts p0 (by simp)
  have h1 := hparts p1 (by simp)
  have h2 := hparts p2 (by simp)
  have h3 := hparts p3 (by simp)
  have h4 := hparts p4 (by simp)
  have hj := intercalate5 '_' p0 p1 p2 p3 p4
  have hsplit : pySplit '_' 4 (pySplitext f.name).1 = [p0, p1, p2, p3, p4] := by
    rw [hstem, hj]
    exact pySplit_join h0.2 h1.2 h2.2 h3.2
  have hpf : parse_filename f.name = some ([p0, p1, p2, p3, p4], stdNote) := by
    simp only [parse_filename, hsplit]
    rfl
  have hcount : ((pySplitext f.name).1).count '_' = 4 := by
    rw [hstem, hj]
    exact count_join5 h0.2 h1.2 h2.2 h3.2 h4.2
  have hneE : f.name ≠ EXAMPLES_KEY := by
    intro hh
    rw [hh] at hcount
    have : (pySplitext EXAMPLES_KEY).1 = EXAMPLES_KEY := by decide
    rw [this] at hcount
    exact absurd hcount (by decide)
  refine ⟨hpf, ?_⟩
  simp only [processFile, hnew, hpf]
  rw [if_pos ?cond]
  case cond =>
    refine ⟨by simp, ?_⟩
    intro p hp
    simp only [List.mem_cons] at hp
    rcases hp with rfl | rfl | rfl | rfl | rfl | hp
    · exact h0.1
    · exact h1.1
    · exact h2.1
    · exact h3.1
    · exact h4.1
    · simp at hp
  rw [dget_dset_ne _ _ hneE, dget_dset_self]

/-- C9 witness: a fresh cache and a concrete well-shaped filename. -/
theorem grammar_parse_writes_rule_record_check :
    parse_filename "AA_BB_CC_DD_EE.pdf".toList
      = some (["AA".toList, "BB".toList, "CC".toList, "DD".toList,
               "EE".toList], stdNote) ∧
    dget (processFile (fun _ _ => Except.error []) []
        ⟨"w9".toList, "AA_BB_CC_DD_EE.pdf".toList⟩).1
        "AA_BB_CC_DD_EE.pdf".toList
      = some (CVal.record ⟨["AA".toList, "BB".toList, "CC".toList,
          "DD".toList, "EE".toList], stdNote, "Rule".toList, none,
          viewUrl "w9".toList⟩) :=
  grammar_parse_writes_rule_record (fun _ _ => Except.error []) []
    ⟨"w9".toList, "AA_BB_CC_DD_EE.pdf".toList⟩ "AA".toList "BB".toList
    "CC".toList "DD".toList "EE".toList rfl (by decide) (by decide)

/-! ### Rename planner log lemmas -/

theorem planFile_log (b1 b2 : Cache) (s : PlanState) (f : DFile) :
    (planFile b1 b2 s f).log = s.log ++ (decideRename b1 b2 f).toList := by
  unfold planFile decideRename
  cases hr : resolveEntry b1 b2 f.name with
  | none =>
    simp only [hr]
    try simp
  | some v =>
    simp only [hr]
    by_cases h : f.name
        = get_target_filename (getParsed v) (pySplitext f.name).2
    · simp only [if_pos h]
      try simp
    · simp only [if_neg h]
      try simp

theorem planFile_drive (b1 b2 : Cache) (s : PlanState) (f : DFile) :
    (planFile b1 b2 s f).drive = s.drive ++ [⟨f.id, outName b1 b2 f⟩] := by
  unfold planFile outName decideRename
  cases hr : resolveEntry b1 b2 f.name with
  | none =>
    simp only [hr]
    try simp
  | some v =>
    simp only [hr]
    by_cases h : f.name
        = get_target_filename (getParsed v) (pySplitext f.name).2
    · simp only [if_pos h]
      try simp
    · simp only [if_neg h]
      try simp

theorem foldl_planFile_log (b1 b2 : Cache) :
    ∀ (l : List DFile) (s : PlanState),
      (l.foldl (planFile b1 b2) s).log
        = s.log ++ l.filterMap (decideRename b1 b2) := by
  intro l
  induction l with
  | nil => intro s; simp
  | cons f fs ih =>
    intro s
    rw [List.foldl_cons, ih, planFile_log]
    cases hd : decideRename b1 b2 f <;> simp [hd]

theorem foldl_planFile_drive (b1 b2 : Cache) :
    ∀ (l : List DFile) (s : PlanState),
      (l.foldl (planFile b1 b2) s).drive
        = s.drive ++ l.map (fun f => ⟨f.id, outName b1 b2 f⟩) := by
  intro l
  induction l with
  | nil => intro s; simp
  | cons f fs ih =>
    intro s
    rw [List.foldl_cons, ih, planFile_drive]
    simp

theorem run_log (c : Cache) (drive : List DFile) :
    (batch_rename_drive_files c drive).log
      = drive.filterMap (decideRename (cache_by_old c) (cache_by_new c)) := by
  unfold batch_rename_drive_files
  rw [foldl_planFile_log]
  rfl

theorem run_drive (c : Cache) (drive : List DFile) :
    (batch_rename_drive_files c drive).drive
      = drive.map (fun f =>
          ⟨f.id, outName (cache_by_old c) (cache_by_new c) f⟩) := by
  unfold batch_rename_drive_files
  rw [foldl_planFile_drive]
  rfl

/-! ### Claim C10 (confirmed): degraded records (5 empty fields) are renamed
to `"____" + ext` — nothing excludes them. -/

/-- C10: a cached record whose 5 fields are all empty, keyed by a drive
file's current name, makes the planner emit a rename of that file to four
underscores plus the preserved extension (there is no guard for degraded
records). -/
theorem degraded_record_renamed_to_underscores
    (c : Cache) (drive : List DFile) (id k : Str) (r : PRec)
    (hkeys : WFKeys c)
    (hmem : (k, CVal.record r) ∈ c)
    (hres : k ∉ reservedKeys)
    (hparsed : r.parsed = empty5)
    (hdrive : (⟨id, k⟩ : DFile) ∈ drive)
    (hne : k ≠ "____".toList ++ (pySplitext k).2) :
    (⟨id, k, "____".toList ++ (pySplitext k).2⟩ : RenEntry)
      ∈ (batch_rename_drive_files c drive).log := by
  rw [run_log]
  refine List.mem_filterMap.2 ⟨⟨id, k⟩, hdrive, ?_⟩
  have hmemOld : (k, CVal.record r) ∈ cache_by_old c := by
    rw [cache_by_old, List.mem_filter]
    exact ⟨hmem, by simpa using hres⟩
  have hnodupOld : (dkeys (cache_by_old c)).Nodup := by
    have hsub : List.Sublist (cache_by_old c) c := List.filter_sublist _
    exact List.Nodup.sublist (hsub.map Prod.fst) hkeys
  have hget : dget (cache_by_old c) k = some (CVal.record r) :=
    dget_of_mem_nodup hnodupOld hmemOld
  have htgt : get_target_filename (getParsed (CVal.record r))
      (pySplitext k).2 = "____".toList ++ (pySplitext k).2 := by
    have h4 : List.intercalate ['_'] empty5 = "____".toList := by decide
    simp [getParsed, hparsed, get_target_filename, h4]
  simp only [decideRename, resolveEntry, hget, htgt]
  rw [if_neg hne]

/-- C10 witness: one degraded record, one matching drive file. -/
theorem degraded_record_renamed_to_underscores_check :
    (⟨"id10".toList, "doc.pdf".toList,
      "____".toList ++ (pySplitext "doc.pdf".toList).2⟩ : RenEntry)
      ∈ (batch_rename_drive_files
          [("doc.pdf".toList,
            CVal.record ⟨empty5, [], "GPT".toList, none, []⟩)]
          [⟨"id10".toList, "doc.pdf".toList⟩]).log :=
  degraded_record_renamed_to_underscores
    [("doc.pdf".toList, CVal.record ⟨empty5, [], "GPT".toList, none, []⟩)]
    [⟨"id10".toList, "doc.pdf".toList⟩] "id10".toList "doc.pdf".toList
    ⟨empty5, [], "GPT".toList, none, []⟩
    (by unfold WFKeys; decide) (by decide) (by decide) rfl (by decide)
    (by decide)

/-! ### Claim C7 (corrected): the audit log is rewritten afresh by every run;
only within a single run is it append-only. -/

/-- C7 (amended): within one run the log only grows by appending (per file
and over any file sequence), and the run's persisted log — the separate log
file and the cache's `"rename_log"` key — is exactly that run's rename list;
a later run replaces it, so earlier runs' entries are not preserved. -/
theorem rename_log_within_run_append :
    (∀ (b1 b2 : Cache) (s : PlanState) (f : DFile),
      ∃ t, (planFile b1 b2 s f).log = s.log ++ t) ∧
    (∀ (b1 b2 : Cache) (l : List DFile) (s : PlanState),
      (l.foldl (planFile b1 b2) s).log
        = s.log ++ l.filterMap (decideRename b1 b2)) ∧
    (∀ (c : Cache) (drive : List DFile),
      dget (batch_rename_drive_files c drive).cache RENAME_LOG_KEY
        = some (CVal.renameLog (batch_rename_drive_files c drive).log)) := by
  refine ⟨?_, foldl_planFile_log, ?_⟩
  · intro b1 b2 s f
    exact ⟨(decideRename b1 b2 f).toList, planFile_log b1 b2 s f⟩
  · intro c drive
    unfold batch_rename_drive_files
    exact dget_dset_self ..

/-- C7 counterexample: a first run renames `a.pdf` and logs one entry; the
second run (no external change) logs nothing, and the persisted log — file
and `"rename_log"` cache key — is now the empty list: the first run's entry
is gone, refuting append-only across runs. -/
theorem rename_log_overwritten_across_runs :
    (let c : Cache := [("a.pdf".toList, CVal.record
        ⟨["X".toList, "Y".toList, "Z".toList, "W".toList, "V".toList],
         [], "Rule".toList, none, []⟩)]
     let r1 := batch_rename_drive_files c [⟨"7".toList, "a.pdf".toList⟩]
     let r2 := batch_rename_drive_files r1.cache r1.drive
     r1.log = [⟨"7".toList, "a.pdf".toList, "X_Y_Z_W_V.pdf".toList⟩] ∧
     r2.log = [] ∧
     dget r2.cache RENAME_LOG_KEY = some (CVal.renameLog [])) := by
  exact ⟨by decide, by decide, by decide⟩

/-! ### Claim C6 groundwork -/

/-- C6 counterexample: record fields may contain dots, and then a committed
rename (drive name and cache key both updated) changes the extension that the
next run recomputes: the second run resolves the record by its new name but
derives a *different* target and emits another rename. -/
theorem planner_second_run_renames_again :
    (let c : Cache := [("spec".toList, CVal.record
        ⟨["A".toList, "B".toList, "C".toList, "D".toList, "9.5COL".toList],
         [], "UserCorrected".toList, none, []⟩)]
     let r1 := batch_rename_drive_files c [⟨"1".toList, "spec".toList⟩]
     let r2 := batch_rename_drive_files r1.cache r1.drive
     r1.log = [⟨"1".toList, "spec".toList, "A_B_C_D_9.5COL".toList⟩] ∧
     r1.drive = [⟨"1".toList, "A_B_C_D_9.5COL".toList⟩] ∧
     dmem r1.cache "A_B_C_D_9.5COL".toList = true ∧
     dmem r1.cache "spec".toList = false ∧
     r2.log = [⟨"1".toList, "A_B_C_D_9.5COL".toList,
                "A_B_C_D_9.5COL.5COL".toList⟩]) := by
  exact ⟨by decide, by decide, by decide, by decide, by decide⟩

theorem mem_unique_of_nodup {α : Type} {l : List (Str × α)}
    (h : (dkeys l).Nodup) {k : Str} {a b : α}
    (h1 : (k, a) ∈ l) (h2 : (k, b) ∈ l) : a = b := by
  have e1 := dget_of_mem_nodup h h1
  have e2 := dget_of_mem_nodup h h2
  rw [e1] at e2
  exact Option.some.inj e2

theorem mem_cache_by_old {S : Cache} {k : Str} {v : CVal} :
    (k, v) ∈ cache_by_old S ↔ (k, v) ∈ S ∧ k ∉ reservedKeys := by
  rw [cache_by_old, List.mem_filter]
  simp

theorem nodup_cache_by_old {S : Cache} (h : (dkeys S).Nodup) :
    (dkeys (cache_by_old S)).Nodup := by
  have hsub : List.Sublist (cache_by_old S) S := List.filter_sublist _
  exact List.Nodup.sublist (hsub.map Prod.fst) h

theorem dget_cache_by_old_of_mem {S : Cache} (hS : (dkeys S).Nodup)
    {k : Str} {v : CVal} (hm : (k, v) ∈ S) (hres : k ∉ reservedKeys) :
    dget (cache_by_old S) k = some v :=
  dget_of_mem_nodup (nodup_cache_by_old hS) (mem_cache_by_old.2 ⟨hm, hres⟩)

theorem dget_cache_by_old_some {S : Cache} {k : Str} {v : CVal}
    (h : dget (cache_by_old S) k = some v) :
    (k, v) ∈ S ∧ k ∉ reservedKeys :=
  mem_cache_by_old.1 (dget_mem h)

theorem mem_foldl_tname :
    ∀ (l acc : Cache) {n : Str} {w : CVal},
      (n, w) ∈ l.foldl (fun acc kv => dset acc (tnameOf kv.1 kv.2) kv.2) acc →
      (n, w) ∈ acc ∨ ∃ kv ∈ l, n = tnameOf kv.1 kv.2 ∧ w = kv.2 := by
  intro l
  induction l with
  | nil => intro acc n w h; exact Or.inl h
  | cons kv t ih =>
    intro acc n w h
    rw [List.foldl_cons] at h
    rcases ih _ h with h1 | h1
    · rcases mem_dset_elim h1 with ⟨rfl, rfl⟩ | h2
      · exact Or.inr ⟨kv, List.mem_cons_self _ _, rfl, rfl⟩
      · exact Or.inl h2
    · obtain ⟨kv', hkv', hn, hw⟩ := h1
      exact Or.inr ⟨kv', List.mem_cons_of_mem _ hkv', hn, hw⟩

theorem dget_isSome_dset_preserve {α : Type} {l : List (Str × α)} {n : Str}
    (k : Str) (v : α) (h : (dget l n).isSome = true) :
    (dget (dset l k v) n).isSome = true := by
  by_cases hk : n = k
  · subst hk; rw [dget_dset_self]; rfl
  · rw [dget_dset_ne _ _ hk]; exact h

theorem dget_isSome_foldl_tname_preserve :
    ∀ (l acc : Cache) {n : Str},
      (dget acc n).isSome = true →
      (dget (l.foldl (fun acc kv => dset acc (tnameOf kv.1 kv.2) kv.2) acc)
        n).isSome = true := by
  intro l
  induction l with
  | nil => intro acc n h; exact h
  | cons kv t ih =>
    intro acc n h
    rw [List.foldl_cons]
    exact ih _ (dget_isSome_dset_preserve _ _ h)

theorem dget_isSome_foldl_tname_of_mem :
    ∀ (l acc : Cache) {kv : Str × CVal}, kv ∈ l →
      (dget (l.foldl (fun acc kv => dset acc (tnameOf kv.1 kv.2) kv.2) acc)
        (tnameOf kv.1 kv.2)).isSome = true := by
  intro l
  induction l with
  | nil => intro acc kv h; simp at h
  | cons kv0 t ih =>
    intro acc kv h
    rw [List.foldl_cons]
    rcases List.mem_cons.1 h with rfl | h1
    · exact dget_isSome_foldl_tname_preserve _ _
        (by rw [dget_dset_self]; rfl)
    · exact ih _ h1

theorem cache_by_new_isSome {S : Cache} {kv : Str × CVal}
    (h : kv ∈ cache_by_old S) :
    (dget (cache_by_new S) (tnameOf kv.1 kv.2)).isSome = true := by
  unfold cache_by_new
  exact dget_isSome_foldl_tname_of_mem _ _ h

theorem cache_by_new_some {S : Cache} {n : Str} {w : CVal}
    (h : dget (cache_by_new S) n = some w) :
    ∃ kv, kv ∈ S ∧ kv.1 ∉ reservedKeys ∧ n = tnameOf kv.1 kv.2 ∧ w = kv.2 := by
  have hm := dget_mem h
  unfold cache_by_new at hm
  rcases mem_foldl_tname _ _ hm with h1 | ⟨kv, hkv, hn, hw⟩
  · simp at h1
  · obtain ⟨hkS, hkres⟩ := mem_cache_by_old.1 hkv
    exact ⟨kv, hkS, hkres, hn, hw⟩

theorem resolveEntry_eq_none {b1 b2 : Cache} {n : Str} :
    resolveEntry b1 b2 n = none ↔ dget b1 n = none ∧ dget b2 n = none := by
  unfold resolveEntry
  cases dget b1 n <;> simp

theorem resolveEntry_cases {b1 b2 : Cache} {n : Str} {v : CVal}
    (h : resolveEntry b1 b2 n = some v) :
    dget b1 n = some v ∨ (dget b1 n = none ∧ dget b2 n = some v) := by
  unfold resolveEntry at h
  cases hh : dget b1 n with
  | none => rw [hh] at h; exact Or.inr ⟨rfl, h⟩
  | some w => rw [hh] at h; exact Or.inl (by rw [← h])

theorem list_eq_of_length_five {α : Type} {l : List α} (h : l.length = 5) :
    ∃ a b c d e, l = [a, b, c, d, e] := by
  rcases l with _ | ⟨a, _ | ⟨b, _ | ⟨c, _ | ⟨d, _ | ⟨e, _ | ⟨x, t⟩⟩⟩⟩⟩⟩
  · simp at h
  · simp at h
  · simp at h
  · simp at h
  · simp at h
  · exact ⟨a, b, c, d, e, rfl⟩
  · simp at h

/-- The extension recomputed from a target name equals the original
extension, provided the record's joined fields are dot-free and of length 5. -/
theorem tname_ext {k : Str} {v : CVal}
    (hlen : (getParsed v).length = 5)
    (hdot : '.' ∉ List.intercalate ['_'] (getParsed v)) :
    pySplitext (tnameOf k v)
      = (List.intercalate ['_'] (getParsed v), (pySplitext k).2) := by
  have hne : List.intercalate ['_'] (getParsed v) ≠ [] := by
    obtain ⟨a, b, c, d, e, hl⟩ := list_eq_of_length_five hlen
    rw [hl, intercalate5]
    intro hh
    have := congrArg List.length hh
    simp at this
  unfold tnameOf get_target_filename
  exact pySplitext_join hdot hne k

theorem tname_count {k : Str} {v : CVal}
    (hlen : (getParsed v).length = 5) : 4 ≤ (tnameOf k v).count '_' := by
  obtain ⟨a, b, c, d, e, hl⟩ := list_eq_of_length_five hlen
  unfold tnameOf get_target_filename
  rw [hl, intercalate5]
  simp [List.count_append, List.count_cons]
  omega

theorem tname_not_reserved {k : Str} {v : CVal}
    (hlen : (getParsed v).length = 5) : tnameOf k v ∉ reservedKeys := by
  intro hmem
  have h4 := tname_count (k := k) hlen
  have hor : tnameOf k v = EXAMPLES_KEY ∨ tnameOf k v = RENAME_LOG_KEY := by
    simpa [reservedKeys] using hmem
  rcases hor with h | h <;> rw [h] at h4 <;> revert h4 <;> decide

/-- The three possible cache outcomes of one loop iteration: untouched, or a
guarded move of the current name's entry to the computed target. -/
theorem planFile_cache (b1 b2 : Cache) (s : PlanState) (f : DFile) :
    (planFile b1 b2 s f).cache = s.cache ∨
    ∃ v, resolveEntry b1 b2 f.name = some v ∧
      f.name ≠ get_target_filename (getParsed v) (pySplitext f.name).2 ∧
      dmem s.cache f.name = true ∧
      dmem s.cache
        (get_target_filename (getParsed v) (pySplitext f.name).2) = false ∧
      (planFile b1 b2 s f).cache
        = dmove s.cache f.name
            (get_target_filename (getParsed v) (pySplitext f.name).2) := by
  unfold planFile
  cases hr : resolveEntry b1 b2 f.name with
  | none => exact Or.inl rfl
  | some v =>
    by_cases h : f.name = get_target_filename (getParsed v) (pySplitext f.name).2
    · left
      simp only [if_pos h]
    · by_cases hg : (dmem s.cache f.name && ! dmem s.cache
          (get_target_filename (getParsed v) (pySplitext f.name).2)) = true
      · right
        rw [Bool.and_eq_true] at hg
        obtain ⟨hg1, hg2⟩ := hg
        have hg2' : dmem s.cache
            (get_target_filename (getParsed v) (pySplitext f.name).2)
              = false := by
          rw [Bool.not_eq_true'] at hg2
          exact hg2
        refine ⟨v, rfl, h, hg1, hg2', ?_⟩
        have hg' : (dmem s.cache f.name && ! dmem s.cache
            (get_target_filename (getParsed v) (pySplitext f.name).2))
              = true := by
          rw [Bool.and_eq_true]
          exact ⟨hg1, hg2⟩
        simp only [if_neg h, if_pos hg']
      · left
        simp only [if_neg h, if_neg hg]

theorem isRecordVal_elim {v : CVal} (h : isRecordVal v = true) :
    ∃ r, v = CVal.record r := by
  cases v with
  | record r => exact ⟨r, rfl⟩
  | exampleList l => simp [isRecordVal] at h
  | renameLog l => simp [isRecordVal] at h

theorem planInv_init (c : Cache) (hk : WFKeys c) : PlanInv c c :=
  ⟨fun _ hkv => Or.inl hkv, hk, fun _ _ h _ _ => h⟩

theorem planInv_step (c : Cache)
    (hrec : WFRecords c) (hfld : WFFields c) (htg : WFTargets c)
    (hk : WFKeys c) (s : PlanState) (f : DFile)
    (hinv : PlanInv c s.cache) :
    PlanInv c (planFile (cache_by_old c) (cache_by_new c) s f).cache := by
  rcases planFile_cache (cache_by_old c) (cache_by_new c) s f with
    heq | ⟨v, hres, hne, hmem1, hmem0, heq⟩
  · rw [heq]; exact hinv
  · rcases resolveEntry_cases hres with hold | ⟨holdn, hnew⟩
    · obtain ⟨hmemc, hresf⟩ := dget_cache_by_old_some hold
      obtain ⟨r, rfl⟩ := isRecordVal_elim (hrec _ hmemc hresf)
      have htgfresh : tnameOf f.name (CVal.record r) ∉ dkeys c := by
        rcases htg _ hmemc hresf with h1 | h1
        · exact absurd h1.symm hne
        · exact h1
      have hmw : dget s.cache f.name = some (CVal.record r) := by
        obtain ⟨w, hw⟩ := Option.isSome_iff_exists.1 hmem1
        have hwmem := dget_mem hw
        rcases hinv.1 _ hwmem with h1 | ⟨k0, r0, hk0, hk0res, hweq, hkeq, hknotin⟩
        · have hwr : w = CVal.record r := mem_unique_of_nodup hk h1 hmemc
          rw [hw, hwr]
        · exact absurd (key_mem_of_mem hmemc) hknotin
      rw [heq]
      unfold dmove
      rw [hmw]
      have hnodupfilter : (dkeys (s.cache.filter
          (fun kv => decide (kv.1 ≠ f.name)))).Nodup := by
        have hsub : List.Sublist
            (s.cache.filter (fun kv => decide (kv.1 ≠ f.name))) s.cache :=
          List.filter_sublist _
        exact List.Nodup.sublist (hsub.map Prod.fst) hinv.2.1
      refine ⟨?_, nodup_dkeys_dset _ hnodupfilter, ?_⟩
      · intro kv hkv
        obtain ⟨a, b⟩ := kv
        rcases mem_dset_elim hkv with ⟨rfl, rfl⟩ | h2
        · exact Or.inr ⟨f.name, r, hmemc, hresf, rfl, rfl, htgfresh⟩
        · exact hinv.1 _ (List.mem_filter.1 h2).1
      · intro k q hq hqres hqfix
        have hqs := hinv.2.2 k q hq hqres hqfix
        have hkne : k ≠ f.name := by
          rintro rfl
          have hqr : CVal.record q = CVal.record r :=
            mem_unique_of_nodup hk hq hmemc
          have : q = r := CVal.record.inj hqr
          subst this
          exact hne hqfix.symm
        have hmemfilter : (k, CVal.record q) ∈ s.cache.filter
            (fun kv => decide (kv.1 ≠ f.name)) :=
          List.mem_filter.2 ⟨hqs, by simp [hkne]⟩
        apply mem_dset_of_ne hmemfilter
        intro hkt
        rw [hkt] at hq
        exact htgfresh (key_mem_of_mem hq)
    · exfalso
      obtain ⟨kv, hkvc, hkvres, hneq, hveq⟩ := cache_by_new_some hnew
      have hf2 := hfld _ hkvc hkvres
      have hext := tname_ext (k := kv.1) (v := kv.2) hf2.1 hf2.2
      apply hne
      rw [hveq, hneq]
      show tnameOf kv.1 kv.2
        = get_target_filename (getParsed kv.2)
            (pySplitext (tnameOf kv.1 kv.2)).2
      rw [hext]
      rfl

theorem planInv_fold (c : Cache)
    (hrec : WFRecords c) (hfld : WFFields c) (htg : WFTargets c)
    (hk : WFKeys c) :
    ∀ (drive : List DFile) (s : PlanState), PlanInv c s.cache →
      PlanInv c (drive.foldl
        (planFile (cache_by_old c) (cache_by_new c)) s).cache := by
  intro drive
  induction drive with
  | nil => intro s h; exact h
  | cons f fs ih =>
    intro s h
    exact ih _ (planInv_step c hrec hfld htg hk s f h)

theorem resolve_on_inv {c S : Cache}
    (hrec : WFRecords c) (hfld : WFFields c)
    (hinv : PlanInv c S) {n : Str} {w : CVal}
    (h : resolveEntry (cache_by_old S) (cache_by_new S) n = some w) :
    ((n, w) ∈ c ∧ n ∉ reservedKeys) ∨
      ∃ k0 r0, (k0, CVal.record r0) ∈ c ∧ k0 ∉ reservedKeys ∧
        w = CVal.record r0 ∧ n = tnameOf k0 (CVal.record r0) := by
  rcases resolveEntry_cases h with hold | ⟨holdn, hnew⟩
  · obtain ⟨hmemS, hres⟩ := dget_cache_by_old_some hold
    rcases hinv.1 _ hmemS with h1 | ⟨k0, r0, hk0, hk0res, hweq, hkeq, _⟩
    · exact Or.inl ⟨h1, hres⟩
    · exact Or.inr ⟨k0, r0, hk0, hk0res, hweq, hkeq⟩
  · obtain ⟨kv, hkvS, hkvres, hneq, hweq⟩ := cache_by_new_some hnew
    rcases hinv.1 _ hkvS with h1 | ⟨k0, r0, hk0, hk0res, hveq, hkeq, _⟩
    · obtain ⟨r, hr⟩ := isRecordVal_elim (hrec _ h1 hkvres)
      refine Or.inr ⟨kv.1, r, ?_, hkvres, ?_, ?_⟩
      · rw [← hr]; exact h1
      · rw [hweq, hr]
      · rw [hneq, hr]
    · have hf2 := hfld _ hk0 hk0res
      have hext := tname_ext (k := k0) (v := CVal.record r0) hf2.1 hf2.2
      refine Or.inr ⟨k0, r0, hk0, hk0res, hweq.trans hveq, ?_⟩
      rw [hneq, hveq, hkeq]
      have hstep : tnameOf (tnameOf k0 (CVal.record r0)) (CVal.record r0)
          = get_target_filename (getParsed (CVal.record r0))
              (pySplitext (tnameOf k0 (CVal.record r0))).2 := rfl
      rw [hstep, hext]
      rfl

theorem skip_target {c S : Cache}
    (hrec : WFRecords c) (hfld : WFFields c) (htg : WFTargets c)
    (hk : WFKeys c) (hinv : PlanInv c S) {n : Str}
    (htarget : ∃ k1 r1, (k1, CVal.record r1) ∈ c ∧ k1 ∉ reservedKeys ∧
      n = tnameOf k1 (CVal.record r1)) (i : Str) :
    decideRename (cache_by_old S) (cache_by_new S) ⟨i, n⟩ = none := by
  obtain ⟨k1, r1, hk1, hk1res, hneq⟩ := htarget
  unfold decideRename
  cases hres : resolveEntry (cache_by_old S) (cache_by_new S) n with
  | none => rfl
  | some w =>
    have hchar := resolve_on_inv hrec hfld hinv hres
    have htgt_eq : get_target_filename (getParsed w) (pySplitext n).2 = n := by
      rcases hchar with ⟨hmemc, hresn⟩ | ⟨k0, r0, hk0, hk0res, hweq, hne0⟩
      · have hnin : n ∈ dkeys c := key_mem_of_mem hmemc
        rcases htg _ hk1 hk1res with h1 | h1
        · have hnk : n = k1 := hneq.trans h1
          have hw : w = CVal.record r1 :=
            mem_unique_of_nodup hk hmemc (hnk ▸ hk1)
          rw [hw, hnk]
          exact h1
        · exact absurd (by rw [← hneq]; exact hnin) h1
      · have hf2 := hfld _ hk0 hk0res
        have hext := tname_ext (k := k0) (v := CVal.record r0) hf2.1 hf2.2
        rw [hweq, hne0]
        show get_target_filename (getParsed (CVal.record r0))
          (pySplitext (tnameOf k0 (CVal.record r0))).2
            = tnameOf k0 (CVal.record r0)
        rw [hext]
        rfl
    dsimp only
    rw [if_pos htgt_eq.symm]

theorem skip_unresolved {c S : Cache}
    (hrec : WFRecords c) (hfld : WFFields c) (hinv : PlanInv c S) {n : Str}
    (h1 : dget (cache_by_old c) n = none)
    (h2 : dget (cache_by_new c) n = none) (i : Str) :
    decideRename (cache_by_old S) (cache_by_new S) ⟨i, n⟩ = none := by
  unfold decideRename
  cases hres : resolveEntry (cache_by_old S) (cache_by_new S) n with
  | none => rfl
  | some w =>
    exfalso
    rcases resolve_on_inv hrec hfld hinv hres with
      ⟨hmemc, hresn⟩ | ⟨k0, r0, hk0, hk0res, hweq, hne0⟩
    · have hmm : (n, w) ∈ cache_by_old c := mem_cache_by_old.2 ⟨hmemc, hresn⟩
      obtain ⟨w', hw'⟩ := mem_dget hmm
      rw [h1] at hw'
      exact Option.noConfusion hw'
    · have hmm : (k0, CVal.record r0) ∈ cache_by_old c :=
        mem_cache_by_old.2 ⟨hk0, hk0res⟩
      have hs := cache_by_new_isSome hmm
      rw [show tnameOf (k0, CVal.record r0).1 (k0, CVal.record r0).2
          = n from hne0.symm] at hs
      rw [h2] at hs
      simp at hs

theorem skip_fixed {c S : Cache}
    (hrec : WFRecords c) (hinv : PlanInv c S) {n : Str} {v : CVal}
    (hold : dget (cache_by_old c) n = some v)
    (hfix : get_target_filename (getParsed v) (pySplitext n).2 = n)
    (i : Str) :
    decideRename (cache_by_old S) (cache_by_new S) ⟨i, n⟩ = none := by
  obtain ⟨hmemc, hres⟩ := dget_cache_by_old_some hold
  obtain ⟨r, rfl⟩ := isRecordVal_elim (hrec _ hmemc hres)
  have hS : (n, CVal.record r) ∈ S := hinv.2.2 n r hmemc hres hfix
  have holdS : dget (cache_by_old S) n = some (CVal.record r) :=
    dget_cache_by_old_of_mem hinv.2.1 hS hres
  have hresS : resolveEntry (cache_by_old S) (cache_by_new S) n
      = some (CVal.record r) := by
    unfold resolveEntry
    rw [holdS]
  unfold decideRename
  dsimp only
  rw [hresS]
  dsimp only
  rw [if_pos hfix.symm]

theorem outName_of_none {b1 b2 : Cache} {f : DFile}
    (hr : resolveEntry b1 b2 f.name = none) : outName b1 b2 f = f.name := by
  unfold outName decideRename
  rw [hr]

theorem outName_of_fix {b1 b2 : Cache} {f : DFile} {v : CVal}
    (hr : resolveEntry b1 b2 f.name = some v)
    (hfix : f.name = get_target_filename (getParsed v) (pySplitext f.name).2) :
    outName b1 b2 f = f.name := by
  unfold outName decideRename
  rw [hr]
  dsimp only
  rw [if_pos hfix]

theorem outName_of_move {b1 b2 : Cache} {f : DFile} {v : CVal}
    (hr : resolveEntry b1 b2 f.name = some v)
    (hne : f.name ≠ get_target_filename (getParsed v) (pySplitext f.name).2) :
    outName b1 b2 f
      = get_target_filename (getParsed v) (pySplitext f.name).2 := by
  unfold outName decideRename
  rw [hr]
  dsimp only
  rw [if_neg hne]

theorem cache_by_old_dset_rlog :
    ∀ (X : Cache) (v : CVal),
      cache_by_old (dset X RENAME_LOG_KEY v) = cache_by_old X := by
  intro X v
  induction X with
  | nil =>
    show cache_by_old [(RENAME_LOG_KEY, v)] = cache_by_old []
    unfold cache_by_old
    rw [List.filter_cons,
      if_neg ((by decide : ¬ decide (RENAME_LOG_KEY ∉ reservedKeys) = true))]
  | cons kv t ih =>
    obtain ⟨k1, v1⟩ := kv
    by_cases hk : k1 = RENAME_LOG_KEY
    · subst hk
      rw [dset, if_pos rfl]
      unfold cache_by_old
      rw [List.filter_cons, List.filter_cons,
        if_neg ((by decide : ¬ decide (RENAME_LOG_KEY ∉ reservedKeys) = true)),
        if_neg ((by decide : ¬ decide (RENAME_LOG_KEY ∉ reservedKeys) = true))]
    · rw [dset, if_neg hk]
      unfold cache_by_old at ih ⊢
      rw [List.filter_cons, List.filter_cons]
      by_cases hp : (decide ((k1, v1).1 ∉ reservedKeys)) = true
      · rw [if_pos hp, if_pos hp, ih]
      · rw [if_neg hp, if_neg hp, ih]

theorem cache_by_new_dset_rlog (X : Cache) (v : CVal) :
    cache_by_new (dset X RENAME_LOG_KEY v) = cache_by_new X := by
  unfold cache_by_new
  rw [cache_by_old_dset_rlog]

/-! ### Claim C6 (corrected): second-run stability of the Rename Planner. -/

/-- C6 (amended): over a well-formed cache — unique keys, every non-reserved
key holding a 5-field record whose underscore-join is dot-free (so a rename
preserves the recomputed extension), and no record's target name colliding
with a different existing key — running the planner twice in a row with no
external change produces zero rename instructions the second time: every
file of the updated listing resolves (if at all) to a record whose
recomputed target equals its current name and is counted as skipped. -/
theorem planner_second_run_no_renames
    (c : Cache) (drive : List DFile)
    (hrec : WFRecords c) (hfld : WFFields c) (htg : WFTargets c)
    (hk : WFKeys c) :
    (batch_rename_drive_files
      (batch_rename_drive_files c drive).cache
      (batch_rename_drive_files c drive).drive).log = [] := by
  have hinv1 : PlanInv c (drive.foldl
      (planFile (cache_by_old c) (cache_by_new c)) ⟨c, [], [], 0, 0⟩).cache :=
    planInv_fold c hrec hfld htg hk drive _ (planInv_init c hk)
  have hcache1 : (batch_rename_drive_files c drive).cache
      = dset (drive.foldl (planFile (cache_by_old c) (cache_by_new c))
            ⟨c, [], [], 0, 0⟩).cache RENAME_LOG_KEY
          (CVal.renameLog (drive.foldl (planFile (cache_by_old c)
            (cache_by_new c)) ⟨c, [], [], 0, 0⟩).log) := rfl
  have hbo : cache_by_old (batch_rename_drive_files c drive).cache
      = cache_by_old (drive.foldl (planFile (cache_by_old c)
          (cache_by_new c)) ⟨c, [], [], 0, 0⟩).cache := by
    rw [hcache1]
    exact cache_by_old_dset_rlog _ _
  have hbn : cache_by_new (batch_rename_drive_files c drive).cache
      = cache_by_new (drive.foldl (planFile (cache_by_old c)
          (cache_by_new c)) ⟨c, [], [], 0, 0⟩).cache := by
    rw [hcache1]
    exact cache_by_new_dset_rlog _ _
  rw [run_log, List.filterMap_eq_nil_iff]
  intro a ha
  rw [run_drive] at ha
  obtain ⟨f, hf, rfl⟩ := List.mem_map.1 ha
  rw [hbo, hbn]
  cases hr : resolveEntry (cache_by_old c) (cache_by_new c) f.name with
  | none =>
    obtain ⟨h1, h2⟩ := resolveEntry_eq_none.1 hr
    rw [outName_of_none hr]
    exact skip_unresolved hrec hfld hinv1 h1 h2 f.id
  | some v =>
    rcases resolveEntry_cases hr with hold | ⟨holdn, hnew⟩
    · by_cases hfix : f.name
          = get_target_filename (getParsed v) (pySplitext f.name).2
      · rw [outName_of_fix hr hfix]
        exact skip_fixed hrec hinv1 hold hfix.symm f.id
      · rw [outName_of_move hr hfix]
        obtain ⟨hmemc, hresf⟩ := dget_cache_by_old_some hold
        obtain ⟨r, rfl⟩ := isRecordVal_elim (hrec _ hmemc hresf)
        exact skip_target hrec hfld htg hk hinv1
          ⟨f.name, r, hmemc, hresf, rfl⟩ f.id
    · obtain ⟨kv, hkvc, hkvres, hneq, hveq⟩ := cache_by_new_some hnew
      have hf2 := hfld _ hkvc hkvres
      have hext := tname_ext (k := kv.1) (v := kv.2) hf2.1 hf2.2
      have hfix : f.name
          = get_target_filename (getParsed v) (pySplitext f.name).2 := by
        rw [hveq, hneq]
        show tnameOf kv.1 kv.2
          = get_target_filename (getParsed kv.2)
              (pySplitext (tnameOf kv.1 kv.2)).2
        have hstep : get_target_filename (getParsed kv.2)
            (pySplitext (tnameOf kv.1 kv.2)).2
              = get_target_filename (getParsed kv.2)
                  (List.intercalate ['_'] (getParsed kv.2),
                    (pySplitext kv.1).2).2 := by rw [hext]
        rw [hstep]
        rfl
      rw [outName_of_fix hr hfix]
      obtain ⟨r', hr'⟩ := isRecordVal_elim (hrec _ hkvc hkvres)
      refine skip_target hrec hfld htg hk hinv1 ⟨kv.1, r', ?_, hkvres, ?_⟩ f.id
      · rw [← hr']
        exact hkvc
      · rw [hneq, hr']

/-- C6 witness: one well-formed record, one matching drive file; the first
run renames, the second run is silent. -/
theorem planner_second_run_no_renames_check :
    (batch_rename_drive_files
      (batch_rename_drive_files
        [("a.pdf".toList, CVal.record
          ⟨["X".toList, "Y".toList, "Z".toList, "W".toList, "V".toList],
           [], "Rule".toList, none, []⟩)]
        [⟨"9".toList, "a.pdf".toList⟩]).cache
      (batch_rename_drive_files
        [("a.pdf".toList, CVal.record
          ⟨["X".toList, "Y".toList, "Z".toList, "W".toList, "V".toList],
           [], "Rule".toList, none, []⟩)]
        [⟨"9".toList, "a.pdf".toList⟩]).drive).log = [] :=
  planner_second_run_no_renames _ _
    (by unfold WFRecords; decide) (by unfold WFFields; decide)
    (by unfold WFTargets; decide) (by unfold WFKeys; decide)
